import Mathlib

/-!
Verification development for the devcontainer-cli repository.

Part 1 embeds the SEA (Single Executable Application) build script
(scripts/sea-build.js) and its smoke test: Node version gating,
sentinel detection over 1 MB read chunks, and the output/lookup paths
of the built binary.

Part 2 models, from the written specification, the configuration /
feature-installation core (substitution engine, config merger,
dependency graph builder, installation planner, installation
orchestrator), whose implementation is not part of the source tree,
and proves the spec's testable properties against that model.
-/

namespace DC

/-! ### SEA build script: Node version gate (scripts/sea-build.js) -/

/-- Embeds the constant MIN_NODE_MAJOR = 20 of scripts/sea-build.js. -/
def MIN_NODE_MAJOR : Nat := 20

/-- Decimal digit test, as used by JavaScript parseInt with radix 10. -/
def isDigit (c : Char) : Bool := '0' ≤ c && c ≤ '9'

/-- Accumulate a list of decimal digit characters into a natural number. -/
def digitsToNat (l : List Char) : Nat :=
  l.foldl (fun a c => a * 10 + (c.toNat - '0'.toNat)) 0

/-- Embeds JavaScript parseInt(s, 10): skip leading whitespace, read an
optional sign and then the maximal run of decimal digits; the result is
NaN (modelled as none) when no digit is found. -/
def jsParseInt (s : String) : Option Int :=
  let l := s.data.dropWhile (fun c => c = ' ' || c = '\t' || c = '\n' || c = '\r')
  match l with
  | '-' :: rest =>
      let d := rest.takeWhile isDigit
      if d.isEmpty then none else some (-(digitsToNat d : Int))
  | '+' :: rest =>
      let d := rest.takeWhile isDigit
      if d.isEmpty then none else some (digitsToNat d : Int)
  | rest =>
      let d := rest.takeWhile isDigit
      if d.isEmpty then none else some (digitsToNat d : Int)

/-- Embeds process.versions.node.split('.')[0]: the text before the first
dot of the version string. -/
def versionMajorText (v : String) : String :=
  String.mk (v.data.takeWhile (fun c => c ≠ '.'))

/-- Embeds ensureNodeVersion of scripts/sea-build.js: parseInt the major
part; when it is strictly below MIN_NODE_MAJOR the script calls fail(),
which exits the process with code 1 (modelled as .error 1); otherwise the
function returns normally (.ok ()).  A NaN major (parse failure) does not
satisfy the JavaScript comparison major < 20, so the function returns
normally in that case, exactly as in the source. -/
def ensureNodeVersion (v : String) : Except Nat Unit :=
  match jsParseInt (versionMajorText v) with
  | some m => if m < (MIN_NODE_MAJOR : Int) then .error 1 else .ok ()
  | none => .ok ()

/-- C8: for every Node.js version string whose text before the first dot
parses as an integer m (which holds for every genuine Node.js version
string), ensureNodeVersion exits with code 1 exactly when m < 20, and
otherwise returns normally. -/
theorem c8_ensure_node_version (v : String) (m : Int)
    (h : jsParseInt (versionMajorText v) = some m) :
    (ensureNodeVersion v = .error 1 ↔ m < 20) ∧
    (ensureNodeVersion v = .ok () ↔ ¬ m < 20) := by
  unfold ensureNodeVersion
  rw [h]
  by_cases hm : m < (MIN_NODE_MAJOR : Int)
  · simp [hm, MIN_NODE_MAJOR] at *
  · simp [hm, MIN_NODE_MAJOR] at *

/-- Witness for C8 at the concrete version string 18.19.1: the major 18
is below 20, so the build fails with exit code 1. -/
theorem c8_witness :
    jsParseInt (versionMajorText "18.19.1") = some 18 ∧
    ensureNodeVersion "18.19.1" = .error 1 := by
  refine ⟨by decide, ?_⟩
  exact ((c8_ensure_node_version "18.19.1" 18 (by decide)).1).mpr (by decide)

/-! ### SEA build script: output path versus smoke-test lookup path -/

/-- Models Node's path.join on a list of segments as interposing the
separator, without normalization: normalization maps equal inputs to
equal outputs, so raw-string equality implies the joined paths denote
the same file. -/
def nodePathJoin : List String → String
  | [] => ""
  | [p] => p
  | p :: rest => p ++ "/" ++ nodePathJoin rest

/-- Embeds the shared extension choice: '.exe' exactly when the platform
is win32 (identical expressions in findBinary and buildSEA). -/
def extFor (platform : String) : String :=
  if platform = "win32" then ".exe" else ""

/-- Embeds the template literal devcontainer.PLATFORM-ARCH plus extension,
written identically in findBinary and buildSEA. -/
def binaryName (platform arch : String) : String :=
  "devcontainer." ++ platform ++ "-" ++ arch ++ extFor platform

/-- Embeds findBinary of the smoke test: path.join(scriptDir, '..',
'dist', 'sea', name). -/
def findBinaryPath (scriptDir platform arch : String) : String :=
  nodePathJoin [scriptDir, "..", "dist", "sea", binaryName platform arch]

/-- Embeds buildSEA's final executable path: finalExeRel =
path.join('dist', 'sea', name), then finalExeAbs = path.join(scriptDir,
'..', finalExeRel). -/
def buildSEAOutputPath (scriptDir platform arch : String) : String :=
  nodePathJoin [scriptDir, "..", nodePathJoin ["dist", "sea", binaryName platform arch]]

/-- C10: for every platform/arch pair (and the common parent directory of
the two scripts), the path the smoke test checks and runs equals the path
buildSEA writes the final injected executable to. -/
theorem c10_binary_path_refinement (scriptDir platform arch : String) :
    findBinaryPath scriptDir platform arch = buildSEAOutputPath scriptDir platform arch := rfl

/-! ### SEA build script: sentinel detection (detectSentinel) -/

/-- Embeds the fixed part NODE_SEA_FUSE_ of the sentinel regex
/NODE_SEA_FUSE_[0-9a-f]\x7b32\x7d(?::\d+)?/ of detectSentinel. -/
def sentinelFixed : List Char := "NODE_SEA_FUSE_".data

/-- Lowercase hexadecimal digit class [0-9a-f] of the sentinel regex. -/
def isHexLower (c : Char) : Bool := ('0' ≤ c && c ≤ '9') || ('a' ≤ c && c ≤ 'f')

/-- Holds when the 46-character core of the sentinel regex
(NODE_SEA_FUSE_ followed by 32 lowercase hex digits) matches at the head
of the character list.  The optional (?::\d+)? suffix never affects
whether the regex matches, only what it returns. -/
def coreHere (l : List Char) : Bool :=
  decide (l.take 14 = sentinelFixed) && decide (46 ≤ l.length) &&
    ((l.drop 14).take 32).all isHexLower

/-- Regex match attempt anchored at the head of l: the core, extended by
the greedy optional :digits suffix, as /NODE_SEA_FUSE_[0-9a-f]\x7b32\x7d(?::\d+)?/
matches it. -/
def matchHere (l : List Char) : Option (List Char) :=
  if coreHere l then
    let ext := match l.drop 46 with
      | ':' :: rest =>
          let ds := rest.takeWhile isDigit
          if ds.isEmpty then [] else ':' :: ds
      | _ => []
    some (l.take 46 ++ ext)
  else none

/-- Embeds String.prototype.match with the sentinel regex: the leftmost
position where the regex matches, returning the matched text. -/
def findMatch : List Char → Option (List Char)
  | [] => none
  | c :: rest =>
      match matchHere (c :: rest) with
      | some m => some m
      | none => findMatch rest

/-- Embeds combined.slice(-64): the last n characters of a list (the
whole list when shorter than n). -/
def lastN (n : Nat) (l : List Char) : List Char := l.drop (l.length - n)

/-- Splits a byte stream into successive read chunks of n bytes, as the
readSync loop of detectSentinel does with n = 1 MB. -/
def chunksOf (n : Nat) (l : List Char) : List (List Char) :=
  if l.isEmpty ∨ n = 0 then [] else l.take n :: chunksOf n (l.drop n)
termination_by l.length
decreasing_by
  rename_i h
  rw [not_or] at h
  have hl : 0 < l.length := by
    have := h.1
    simp [List.isEmpty_iff, ← List.length_pos] at this
    omega
  have hn : 0 < n := Nat.pos_of_ne_zero h.2
  simp [List.length_drop]
  omega

/-- Embeds the while loop of detectSentinel: each chunk is prepended with
the residual carried from the previous iteration, searched with the
sentinel regex, and the last 64 characters are kept as the next residual. -/
def scanChunks : List (List Char) → List Char → Option (List Char)
  | [], _ => none
  | c :: rest, residual =>
      let combined := residual ++ c
      match findMatch combined with
      | some m => some m
      | none => scanChunks rest (lastN 64 combined)

/-- Embeds detectSentinel of scripts/sea-build.js on a binary file whose
latin1-decoded content is the given character list: chunked 1 MB reads
with an empty initial residual; none models the fail() branch. -/
def detectSentinel (content : List Char) : Option (List Char) :=
  scanChunks (chunksOf 1048576 content) []

/-- Helper: the sentinel core test only inspects the first 46 characters,
so appending anything after a 46-character block does not change it. -/
theorem coreHere_append (x b : List Char) (h : 46 ≤ x.length) :
    coreHere (x ++ b) = coreHere x := by
  unfold coreHere
  rw [List.take_append_of_le_length (by omega),
      List.drop_append_of_le_length (by omega),
      List.take_append_of_le_length (by simp [List.length_drop]; omega),
      decide_eq_true (show 46 ≤ (x ++ b).length by simp [List.length_append]; omega),
      decide_eq_true h]

/-- Helper: the sentinel core test is unchanged by truncating to the
first 46 characters. -/
theorem coreHere_take46 (l : List Char) (h : 46 ≤ l.length) :
    coreHere (l.take 46) = coreHere l := by
  conv_rhs => rw [← List.take_append_drop 46 l]
  rw [coreHere_append _ _ (by simp [List.length_take]; omega)]

/-- Helper: a successful anchored match returns a string that itself
satisfies the sentinel core pattern. -/
theorem matchHere_shape {l m : List Char} (h : matchHere l = some m) :
    coreHere m = true := by
  unfold matchHere at h
  by_cases hc : coreHere l
  · simp only [hc, if_true] at h
    have hlen : 46 ≤ l.length := by
      unfold coreHere at hc
      simp only [Bool.and_eq_true, decide_eq_true_eq] at hc
      exact hc.1.2
    obtain rfl : _ = m := Option.some.inj h
    rw [coreHere_append _ _ (by simp [List.length_take]; omega), coreHere_take46 l hlen]
    exact hc
  · simp [hc] at h

/-- Helper: if the core pattern holds at the head, the anchored match
succeeds. -/
theorem matchHere_isSome_of_core {l : List Char} (h : coreHere l = true) :
    ∃ m, matchHere l = some m := by
  unfold matchHere
  rw [if_pos h]
  exact ⟨_, rfl⟩

/-- Helper: a value returned by findMatch satisfies the sentinel core
pattern. -/
theorem findMatch_shape : ∀ {l m : List Char}, findMatch l = some m → coreHere m = true := by
  intro l
  induction l with
  | nil => intro m h; simp [findMatch] at h
  | cons c rest ih =>
      intro m h
      unfold findMatch at h
      cases hm : matchHere (c :: rest) with
      | some m2 =>
          rw [hm] at h
          cases h
          exact matchHere_shape hm
      | none =>
          rw [hm] at h
          exact ih h

/-- Helper: findMatch succeeds whenever the core pattern occurs at some
position of the scanned string. -/
theorem findMatch_some_of_core : ∀ (l : List Char) (i : Nat),
    coreHere (l.drop i) = true → ∃ m, findMatch l = some m := by
  intro l
  induction l with
  | nil =>
      intro i h
      rw [List.drop_nil] at h
      exact absurd h (by decide)
  | cons c rest ih =>
      intro i h
      unfold findMatch
      cases hm : matchHere (c :: rest) with
      | some m => exact ⟨m, rfl⟩
      | none =>
          cases i with
          | zero =>
              obtain ⟨m, hm2⟩ := matchHere_isSome_of_core (by simpa using h)
              rw [hm] at hm2
              cases hm2
          | succ j =>
              exact ih j (by simpa using h)

/-- Helper: keeping the last 64 characters loses nothing that still
matters after the next chunk is appended: the residual of a residual is
the residual of the whole processed stream. -/
theorem lastN_append_lastN (n : Nat) (a b : List Char) :
    lastN n (lastN n a ++ b) = lastN n (a ++ b) := by
  unfold lastN
  by_cases hna : n ≤ a.length
  · have hlen : (a.drop (a.length - n)).length = n := by
      simp [List.length_drop]; omega
    rw [List.length_append, List.length_append, hlen]
    by_cases hbn : b.length ≤ n
    · rw [show n + b.length - n = b.length by omega,
          List.drop_append_of_le_length (by omega),
          List.drop_append_of_le_length (by omega),
          List.drop_drop]
      congr 2
      omega
    · have e1 := @List.drop_append _ (a.drop (a.length - n)) b (b.length - n)
      rw [hlen] at e1
      have e2 := @List.drop_append _ a b (b.length - n)
      rw [show n + b.length - n = n + (b.length - n) by omega, e1,
          show a.length + b.length - n = a.length + (b.length - n) by omega, e2]
  · rw [show a.length - n = 0 by omega, List.drop_zero]

/-- Helper: the 1 MB read chunks reassemble to the whole file content. -/
theorem flatten_chunksOf (n : Nat) (hn : 0 < n) (l : List Char) :
    (chunksOf n l).flatten = l := by
  rw [chunksOf]
  by_cases he : l.isEmpty ∨ n = 0
  · rcases he with he | he
    · simp [he, List.isEmpty_iff.mp he]
    · omega
  · simp only [he, if_false]
    rw [List.flatten_cons, flatten_chunksOf n hn (l.drop n), List.take_append_drop]
termination_by l.length
decreasing_by
  rw [not_or] at he
  have hl : 0 < l.length := by
    have := he.1
    simp [List.isEmpty_iff, ← List.length_pos] at this
    omega
  simp [List.length_drop]
  omega

/-- Helper: values returned by the chunked scan satisfy the sentinel
core pattern. -/
theorem scanChunks_shape : ∀ {chunks : List (List Char)} {r m : List Char},
    scanChunks chunks r = some m → coreHere m = true := by
  intro chunks
  induction chunks with
  | nil => intro r m h; simp [scanChunks] at h
  | cons c rest ih =>
      intro r m h
      cases hf : findMatch (r ++ c) with
      | some m2 =>
          simp only [scanChunks, hf, Option.some.injEq] at h
          subst h
          exact findMatch_shape hf
      | none =>
          simp only [scanChunks, hf] at h
          exact ih h

/-- Completeness of the sliding-window chunk scan: if the 46-character
sentinel core occurs at position i of the remaining stream and has not
been fully consumed yet, the scan finds a match.  The 64-character
residual is at least as long as the 46-character core, so an occurrence
straddling a chunk boundary is still fully contained in some
residual-plus-chunk window. -/
theorem scanChunks_finds :
    ∀ (chunks : List (List Char)) (processed : List Char) (i : Nat),
      coreHere ((processed ++ chunks.flatten).drop i) = true →
      processed.length < i + 46 →
      ∃ m, scanChunks chunks (lastN 64 processed) = some m := by
  intro chunks
  induction chunks with
  | nil =>
      intro processed i hc hlt
      exfalso
      rw [List.flatten_nil, List.append_nil] at hc
      have h46 : 46 ≤ (processed.drop i).length := by
        unfold coreHere at hc
        simp only [Bool.and_eq_true, decide_eq_true_eq] at hc
        exact hc.1.2
      simp [List.length_drop] at h46
      omega
  | cons c rest ih =>
      intro processed i hc hlt
      have hsplit : processed ++ (c :: rest).flatten = (processed ++ c) ++ rest.flatten := by
        rw [List.flatten_cons, List.append_assoc]
      rw [hsplit] at hc
      cases hf : findMatch (lastN 64 processed ++ c) with
      | some m =>
          simp only [scanChunks, hf]
          exact ⟨m, rfl⟩
      | none =>
          simp only [scanChunks, hf]
          by_cases hcase : i + 46 ≤ (processed ++ c).length
          · exfalso
            have hb_le : processed.length - 64 ≤ processed.length := by omega
            have hcomb : lastN 64 processed ++ c = (processed ++ c).drop (processed.length - 64) := by
              unfold lastN
              rw [List.drop_append_of_le_length hb_le]
            have hdrop : (lastN 64 processed ++ c).drop (i - (processed.length - 64)) =
                (processed ++ c).drop i := by
              rw [hcomb, List.drop_drop]
              congr 1
              omega
            have hcore2 : coreHere ((processed ++ c).drop i) = true := by
              rw [List.drop_append_of_le_length (by omega)] at hc
              rw [coreHere_append _ _ (by
                simp only [List.length_drop]
                simp only [List.length_append] at hcase ⊢
                omega)] at hc
              exact hc
            obtain ⟨m, hm⟩ := findMatch_some_of_core (lastN 64 processed ++ c)
              (i - (processed.length - 64)) (by rw [hdrop]; exact hcore2)
            rw [hf] at hm
            cases hm
          · rw [lastN_append_lastN 64 processed c]
            exact ih (processed ++ c) i hc (by omega)

/-- C9: for every binary content containing an occurrence of the
sentinel pattern (NODE_SEA_FUSE_ followed by 32 lowercase hex digits),
detectSentinel returns a string satisfying that pattern rather than
reaching its failure branch: the 64-character residual kept between the
1 MB read chunks is at least as long as the 46-character fixed part, so
no boundary-straddling occurrence is missed. -/
theorem c9_detect_sentinel (content : List Char) (i : Nat)
    (h : coreHere (content.drop i) = true) :
    ∃ s, detectSentinel content = some s ∧ coreHere s = true := by
  unfold detectSentinel
  obtain ⟨m, hm⟩ := scanChunks_finds (chunksOf 1048576 content) [] i
    (by rw [List.nil_append, flatten_chunksOf 1048576 (by omega) content]; exact h)
    (by simp only [List.length_nil]; omega)
  rw [show lastN 64 ([] : List Char) = [] from rfl] at hm
  exact ⟨m, hm, scanChunks_shape hm⟩

/-- Concrete content for the C9 witness: two junk characters, then the
sentinel core, then a tail. -/
def c9Content : List Char :=
  ("XX" ++ "NODE_SEA_FUSE_" ++ "0123456789abcdef0123456789abcdef" ++ ":7rest").data

/-- Witness for C9: the sentinel core occurs at position 2 of c9Content,
so detectSentinel finds a match satisfying the pattern. -/
theorem c9_witness :
    coreHere (c9Content.drop 2) = true ∧
    ∃ s, detectSentinel c9Content = some s ∧ coreHere s = true :=
  ⟨by decide, c9_detect_sentinel c9Content 2 (by decide)⟩

/-! ### Config Merger (spec §4.2) — modelled from the spec

The implementation of the configuration/feature core is not part of the
source tree (only the specification describes it), so the following
definitions are modelled from the spec's words. -/

/-- Modelled from the spec: a configuration layer as consumed by the
Config Merger — scalar fields (name, image, workspaceFolder), array
fields (runArgs, mounts) and a map field (containerEnv).  The merged
EffectiveConfig has the same shape. -/
structure ConfigLayer where
  name : Option String
  image : Option String
  workspaceFolder : Option String
  runArgs : List String
  mounts : List String
  containerEnv : List (String × String)
deriving DecidableEq, Repr

/-- Modelled from the spec: scalar fields are last-writer-wins — the
later layer's value dominates when set, otherwise the earlier value
survives. -/
def mergeScalar (a b : Option String) : Option String :=
  match b with
  | some v => some v
  | none => a

/-- Modelled from the spec: map fields merge key-wise — a later layer's
key overwrites an earlier layer's same key; unset keys from earlier
layers survive. -/
def mergeMap (a b : List (String × String)) : List (String × String) :=
  a.filter (fun p => !(b.any (fun q => q.1 == p.1))) ++ b

/-- Modelled from the spec: combination of two adjacent layers — scalar
last-writer-wins, array order-preserving concatenation, key-wise map
merge. -/
def merge2 (a b : ConfigLayer) : ConfigLayer where
  name := mergeScalar a.name b.name
  image := mergeScalar a.image b.image
  workspaceFolder := mergeScalar a.workspaceFolder b.workspaceFolder
  runArgs := a.runArgs ++ b.runArgs
  mounts := a.mounts ++ b.mounts
  containerEnv := mergeMap a.containerEnv b.containerEnv

/-- Layer with nothing set, the starting point of the merge fold. -/
def emptyLayer : ConfigLayer := ⟨none, none, none, [], [], []⟩

/-- Left fold of layers in merge order. -/
def mergeList (ls : List ConfigLayer) : ConfigLayer := ls.foldl merge2 emptyLayer

/-- Modelled from the spec: merge(defaults, baseConfigs, rawConfig,
overrides, imageMetadata) applies the layers in the order defaults →
each base in declaration order → raw → CLI overrides → image metadata. -/
def merge (defaults : ConfigLayer) (bases : List ConfigLayer)
    (raw overrides imageMetadata : ConfigLayer) : ConfigLayer :=
  mergeList (defaults :: bases ++ [raw, overrides, imageMetadata])

/-- Names of the scalar fields of a configuration layer. -/
inductive ScalarKey where
  | name
  | image
  | workspaceFolder
deriving DecidableEq, Repr

/-- Projection of a scalar field by key. -/
def getScalar : ScalarKey → ConfigLayer → Option String
  | .name, l => l.name
  | .image, l => l.image
  | .workspaceFolder, l => l.workspaceFolder

/-- Helper: last-set scalar value over a layer list, starting from a. -/
def lastScalarAux (k : ScalarKey) (a : Option String) (ls : List ConfigLayer) : Option String :=
  ls.foldl (fun a l => mergeScalar a (getScalar k l)) a

theorem mergeScalar_none_left (b : Option String) : mergeScalar none b = b := by
  cases b <;> rfl

theorem mergeScalar_assoc (x y z : Option String) :
    mergeScalar (mergeScalar x y) z = mergeScalar x (mergeScalar y z) := by
  cases z <;> cases y <;> rfl

theorem getScalar_merge2 (k : ScalarKey) (a b : ConfigLayer) :
    getScalar k (merge2 a b) = mergeScalar (getScalar k a) (getScalar k b) := by
  cases k <;> rfl

theorem lastScalarAux_start (k : ScalarKey) (a : Option String) (ls : List ConfigLayer) :
    lastScalarAux k a ls = mergeScalar a (lastScalarAux k none ls) := by
  induction ls generalizing a with
  | nil => cases a <;> rfl
  | cons l rest ih =>
      unfold lastScalarAux at *
      simp only [List.foldl_cons]
      rw [ih (mergeScalar a (getScalar k l)), ih (mergeScalar none (getScalar k l)),
          mergeScalar_none_left, mergeScalar_assoc]

theorem getScalar_foldl (k : ScalarKey) (acc : ConfigLayer) (ls : List ConfigLayer) :
    getScalar k (ls.foldl merge2 acc) = mergeScalar (getScalar k acc) (lastScalarAux k none ls) := by
  induction ls generalizing acc with
  | nil => rfl
  | cons l rest ih =>
      simp only [List.foldl_cons]
      rw [ih (merge2 acc l), getScalar_merge2, mergeScalar_assoc]
      congr 1
      rw [show lastScalarAux k none (l :: rest)
            = lastScalarAux k (mergeScalar none (getScalar k l)) rest from rfl]
      conv_rhs => rw [lastScalarAux_start]
      rw [mergeScalar_none_left]

theorem lastScalarAux_append (k : ScalarKey) (xs ys : List ConfigLayer) :
    lastScalarAux k none (xs ++ ys)
      = mergeScalar (lastScalarAux k none xs) (lastScalarAux k none ys) := by
  unfold lastScalarAux
  rw [List.foldl_append]
  exact lastScalarAux_start k _ ys

theorem lastScalarAux_all_none (k : ScalarKey) (ys : List ConfigLayer)
    (h : ∀ L ∈ ys, getScalar k L = none) : lastScalarAux k none ys = none := by
  induction ys with
  | nil => rfl
  | cons l rest ih =>
      have h1 : getScalar k l = none := h l (List.mem_cons_self l rest)
      show lastScalarAux k (mergeScalar none (getScalar k l)) rest = none
      rw [h1]
      exact ih (fun L hL => h L (List.mem_cons_of_mem l hL))

/-- C5: for every two layers L1 (earlier in the merge order defaults →
bases → raw → overrides → image metadata) and L2 (later) that both set
the same scalar field, the merged EffectiveConfig carries L2's value —
last writer wins (L2 being the last layer to set the field). -/
theorem c5_merge_scalar_precedence (k : ScalarKey)
    (defaults : ConfigLayer) (bases : List ConfigLayer)
    (raw overrides imageMetadata : ConfigLayer)
    (pre post : List ConfigLayer) (L2 : ConfigLayer) (v : String)
    (hlayers : defaults :: bases ++ [raw, overrides, imageMetadata] = pre ++ L2 :: post)
    (hpair : ∃ L1 ∈ pre, ∃ w, getScalar k L1 = some w)
    (hset2 : getScalar k L2 = some v)
    (hpost : ∀ L ∈ post, getScalar k L = none) :
    getScalar k (merge defaults bases raw overrides imageMetadata) = some v := by
  unfold merge mergeList
  rw [hlayers, getScalar_foldl, lastScalarAux_append,
      show lastScalarAux k none (L2 :: post)
        = lastScalarAux k (mergeScalar none (getScalar k L2)) post from rfl]
  conv_lhs => rw [lastScalarAux_start k (mergeScalar none (getScalar k L2)) post]
  rw [mergeScalar_none_left, hset2, lastScalarAux_all_none k post hpost]
  rfl

/-- Witness for C5: defaults set name to a, the raw config sets name to
b, the later layers leave it unset; the merged name is b. -/
theorem c5_witness :
    (⟨some "a", none, none, [], [], []⟩ : ConfigLayer) :: ([] : List ConfigLayer)
        ++ [⟨some "b", none, none, [], [], []⟩, emptyLayer, emptyLayer]
      = [(⟨some "a", none, none, [], [], []⟩ : ConfigLayer)]
        ++ (⟨some "b", none, none, [], [], []⟩ : ConfigLayer) :: [emptyLayer, emptyLayer] ∧
    getScalar .name (merge ⟨some "a", none, none, [], [], []⟩ []
        ⟨some "b", none, none, [], [], []⟩ emptyLayer emptyLayer) = some "b" := by
  refine ⟨rfl, ?_⟩
  exact c5_merge_scalar_precedence .name _ [] _ emptyLayer emptyLayer
    [⟨some "a", none, none, [], [], []⟩] [emptyLayer, emptyLayer]
    ⟨some "b", none, none, [], [], []⟩ "b" rfl
    ⟨⟨some "a", none, none, [], [], []⟩, by simp, "a", rfl⟩ rfl
    (by
      intro L hL
      simp only [List.mem_cons, List.not_mem_nil, or_false] at hL
      rcases hL with rfl | rfl <;> rfl)

/-! ### Feature data model and Installation Orchestrator (spec §3, §4.6)
— modelled from the spec -/

/-- Modelled from the spec: a resolved FeatureManifest, restricted to
the fields the graph builder, planner and orchestrator consume — id,
hard dependencies (dependsOn), soft ordering hints (installsAfter), and
the contributed container environment. -/
structure FeatureManifest where
  id : String
  dependsOn : List String
  installsAfter : List String
  containerEnv : List (String × String)
deriving DecidableEq, Repr

/-- Modelled from the spec: an InstallationError carries the failed
feature's id, its exit code, and how many features had already installed
successfully. -/
structure InstallationError where
  featureId : String
  exitCode : Nat
  succeededCount : Nat
deriving DecidableEq, Repr

/-- Outcome of an orchestrator run: the features whose install scripts
were attempted (in order), the container environment after the run
(successful contributions folded in, append-only, not rolled back), and
the error when a script failed. -/
structure InstallResult where
  attempted : List String
  containerEnv : List (String × String)
  error : Option InstallationError
deriving DecidableEq, Repr

/-- Modelled from the spec: append-only union — a feature's containerEnv
entries are appended, never overwriting an already-present key. -/
def applyFeature (env : List (String × String)) (f : FeatureManifest) :
    List (String × String) :=
  env ++ f.containerEnv.filter (fun p => !(env.any (fun q => q.1 == p.1)))

/-- Modelled from the spec: the orchestrator iterates the plan strictly
in order, running each feature's install script through the exec
collaborator (modelled by its exit code); success folds the feature's
contribution in, a non-zero exit halts remaining installs (fail-fast)
and reports the failed feature plus the count of successes, without
rolling back earlier installs. -/
def installAux (exec : FeatureManifest → Nat) :
    List FeatureManifest → List (String × String) → List String → Nat → InstallResult
  | [], env, att, _ => ⟨att.reverse, env, none⟩
  | f :: rest, env, att, okCount =>
      if exec f = 0 then
        installAux exec rest (applyFeature env f) (f.id :: att) (okCount + 1)
      else
        ⟨(f.id :: att).reverse, env, some ⟨f.id, exec f, okCount⟩⟩

/-- Modelled from the spec: install(plan, effectiveConfig, exec) with
the configuration restricted to its containerEnv map. -/
def install (plan : List FeatureManifest) (env0 : List (String × String))
    (exec : FeatureManifest → Nat) : InstallResult :=
  installAux exec plan env0 [] 0

/-- Helper: unrolling the orchestrator over a successful prefix followed
by a failing feature. -/
theorem installAux_fail (exec : FeatureManifest → Nat) (f : FeatureManifest)
    (post : List FeatureManifest) :
    ∀ (pre : List FeatureManifest) (env : List (String × String)) (att : List String) (k : Nat),
    (∀ m ∈ pre, exec m = 0) → exec f ≠ 0 →
    installAux exec (pre ++ f :: post) env att k =
      ⟨att.reverse ++ pre.map (·.id) ++ [f.id], pre.foldl applyFeature env,
        some ⟨f.id, exec f, k + pre.length⟩⟩ := by
  intro pre
  induction pre with
  | nil =>
      intro env att k hpre hf
      simp only [List.nil_append, installAux, if_neg hf]
      simp [List.reverse_cons]
  | cons p rest ih =>
      intro env att k hpre hf
      have hp : exec p = 0 := hpre p (List.mem_cons_self p rest)
      simp only [List.cons_append, installAux, if_pos hp, List.append_eq]
      rw [ih (applyFeature env p) (p.id :: att) (k + 1)
          (fun m hm => hpre m (List.mem_cons_of_mem p hm)) hf]
      simp only [InstallResult.mk.injEq, List.reverse_cons, List.append_assoc,
        List.map_cons, List.foldl_cons, List.length_cons, Option.some.injEq,
        InstallationError.mk.injEq]
      refine ⟨rfl, trivial, trivial, trivial, by omega⟩

/-- C7: when every feature before f in the install plan succeeds and f's
install script exits non-zero, the orchestrator attempts exactly the
prefix plus f (no later feature), reports an InstallationError naming f,
its exit code and the number of already-successful installs, and keeps
(does not roll back) the contributions of the successful prefix. -/
theorem c7_orchestrator_fail_fast (exec : FeatureManifest → Nat)
    (pre : List FeatureManifest) (f : FeatureManifest) (post : List FeatureManifest)
    (env0 : List (String × String))
    (hpre : ∀ m ∈ pre, exec m = 0) (hf : exec f ≠ 0)
    (hids : ((pre ++ f :: post).map (·.id)).Nodup) :
    install (pre ++ f :: post) env0 exec =
      ⟨pre.map (·.id) ++ [f.id], pre.foldl applyFeature env0,
        some ⟨f.id, exec f, pre.length⟩⟩ ∧
    ∀ q ∈ post, q.id ∉ (install (pre ++ f :: post) env0 exec).attempted := by
  have hrun : install (pre ++ f :: post) env0 exec =
      ⟨pre.map (·.id) ++ [f.id], pre.foldl applyFeature env0,
        some ⟨f.id, exec f, pre.length⟩⟩ := by
    unfold install
    rw [installAux_fail exec f post pre env0 [] 0 hpre hf]
    simp
  refine ⟨hrun, ?_⟩
  intro q hq
  rw [hrun]
  simp only [List.map_append, List.map_cons] at hids
  rw [List.nodup_append] at hids
  obtain ⟨-, hcons, hdisj⟩ := hids
  have hqmem : q.id ∈ post.map (·.id) := List.mem_map_of_mem _ hq
  simp only [List.mem_append, List.mem_singleton]
  rintro (hqpre | hqf)
  · exact hdisj hqpre (by simp [hqmem])
  · rw [List.nodup_cons] at hcons
    exact hcons.1 (hqf ▸ hqmem)

/-- Concrete failing feature for the C7 witness. -/
def f1c : FeatureManifest := ⟨"f1", [], [], []⟩

/-- Concrete never-attempted feature for the C7 witness. -/
def f2c : FeatureManifest := ⟨"f2", [], [], []⟩

/-- Concrete exec collaborator for the C7 witness: f1's script exits 1,
everything else exits 0. -/
def execC : FeatureManifest → Nat := fun m => if m.id = "f1" then 1 else 0

/-- Witness for C7 at the plan [f1, f2] with f1 failing: the error names
f1 with zero fully-succeeded features, and f2 is never attempted. -/
theorem c7_witness :
    execC f1c ≠ 0 ∧
    install ([] ++ f1c :: [f2c]) [] execC = ⟨["f1"], [], some ⟨"f1", 1, 0⟩⟩ ∧
    "f2" ∉ (install ([] ++ f1c :: [f2c]) [] execC).attempted := by
  have h := c7_orchestrator_fail_fast execC [] f1c [f2c] []
    (by intro m hm; cases hm) (by decide) (by decide)
  exact ⟨by decide, h.1, h.2 f2c (by simp)⟩

/-! ### Substitution Engine (spec §4.1) — modelled from the spec -/

/-- Modelled from the spec: the two-phase substitution lifecycle — a
first pass before the container exists, a second after creation. -/
inductive Phase where
  | preContainer
  | postContainer
deriving DecidableEq, Repr

/-- Modelled from the spec: SubstitutionContext with phase, workspace
folders, environment mappings and the generated id; created per
resolution pass and never mutated mid-pass. -/
structure SubstitutionContext where
  phase : Phase
  localWorkspaceFolder : String
  containerWorkspaceFolder : String
  localEnv : List (String × String)
  containerEnv : List (String × String)
  generatedId : String
deriving DecidableEq, Repr

/-- Environment lookup; an absent name substitutes to the empty string
(spec Scenario C). -/
def lookupEnv (env : List (String × String)) (name : String) : String :=
  match env.find? (fun p => p.1 == name) with
  | some p => p.2
  | none => ""

/-- Modelled from the spec: replacement text of one recognized token
body (the text between de dollar-brace and the closing brace).  A
containerEnv token in the pre-container phase is phase-inappropriate and
resolves to the empty string, not an error.  An unrecognized token body
yields none and is kept verbatim. -/
def substToken (ctx : SubstitutionContext) (inner : List Char) : Option (List Char) :=
  if inner = "localWorkspaceFolder".data then some ctx.localWorkspaceFolder.data
  else if inner = "containerWorkspaceFolder".data then some ctx.containerWorkspaceFolder.data
  else if inner = "devcontainerId".data then some ctx.generatedId.data
  else if ("localEnv:".data).isPrefixOf inner then
    some (lookupEnv ctx.localEnv (String.mk (inner.drop 9))).data
  else if ("containerEnv:".data).isPrefixOf inner then
    if ctx.phase = Phase.postContainer then
      some (lookupEnv ctx.containerEnv (String.mk (inner.drop 13))).data
    else some []
  else none

/-- Scan up to the first closing brace: returns the text before it and
the text after it. -/
def splitAtClose : List Char → Option (List Char × List Char)
  | [] => none
  | c :: rest =>
      if c = '}' then some ([], rest)
      else (splitAtClose rest).map (fun p => (c :: p.1, p.2))

/-- Helper: a successful split decomposes the input around the first
closing brace, whose left part is brace-free. -/
theorem splitAtClose_some : ∀ {l a b : List Char},
    splitAtClose l = some (a, b) → l = a ++ '}' :: b ∧ '}' ∉ a := by
  intro l
  induction l with
  | nil => intro a b h; simp [splitAtClose] at h
  | cons c rest ih =>
      intro a b h
      unfold splitAtClose at h
      by_cases hc : c = '}'
      · rw [if_pos hc] at h
        obtain ⟨rfl, rfl⟩ := Prod.mk.injEq .. ▸ Option.some.inj h
        subst hc
        exact ⟨rfl, List.not_mem_nil '}'⟩
      · rw [if_neg hc] at h
        cases hs : splitAtClose rest with
        | none => rw [hs] at h; cases h
        | some p =>
            rw [hs] at h
            obtain ⟨a2, b2⟩ := p
            simp only [Option.map, Option.some.injEq, Prod.mk.injEq] at h
            obtain ⟨rfl, rfl⟩ := h
            obtain ⟨he, hm⟩ := ih hs
            constructor
            · rw [List.cons_append, ← he]
            · simp only [List.mem_cons, not_or]
              exact ⟨fun hx => hc hx.symm, hm⟩

/-- Helper: the remainder after the first closing brace is shorter than
the input. -/
theorem splitAtClose_length {l a b : List Char}
    (h : splitAtClose l = some (a, b)) : b.length < l.length := by
  obtain ⟨he, -⟩ := splitAtClose_some h
  subst he
  simp [List.length_append]
  omega

/-- Modelled from the spec: one textual substitution pass over a string
(as a character list).  The scan walks left to right; a dollar-brace
opens a token, the first closing brace ends it; recognized tokens are
replaced (the replacement is never re-scanned), unrecognized tokens are
kept verbatim, an unclosed token opener is kept as literal text, and any
other character is copied. -/
def resolveChars (ctx : SubstitutionContext) (l : List Char) : List Char :=
  match l with
  | [] => []
  | c :: rest =>
      if c = '$' then
        match rest with
        | [] => [c]
        | c2 :: rest2 =>
            if c2 = '{' then
              match hs : splitAtClose rest2 with
              | some (inner, after) =>
                  (match substToken ctx inner with
                   | some rep => rep
                   | none => '$' :: '{' :: (inner ++ ['}'])) ++ resolveChars ctx after
              | none => c :: c2 :: resolveChars ctx rest2
            else c :: resolveChars ctx (c2 :: rest2)
      else c :: resolveChars ctx rest
termination_by l.length
decreasing_by
  · have := splitAtClose_length hs
    simp only [List.length_cons]
    omega
  · simp only [List.length_cons]
    omega
  · simp only [List.length_cons]
    omega
  · simp only [List.length_cons]
    omega

/-- Modelled from the spec: resolve on a string value. -/
def resolveString (ctx : SubstitutionContext) (s : String) : String :=
  String.mk (resolveChars ctx s.data)

theorem rc_nil (ctx : SubstitutionContext) : resolveChars ctx [] = [] := by
  conv_lhs => unfold resolveChars

theorem rc_lit (ctx : SubstitutionContext) (c : Char) (rest : List Char) (h : c ≠ '$') :
    resolveChars ctx (c :: rest) = c :: resolveChars ctx rest := by
  conv_lhs => unfold resolveChars
  simp [h]

theorem rc_dollar_end (ctx : SubstitutionContext) : resolveChars ctx ['$'] = ['$'] := by
  conv_lhs => unfold resolveChars
  simp

theorem rc_dollar_nb (ctx : SubstitutionContext) (c2 : Char) (rest2 : List Char) (h : c2 ≠ '{') :
    resolveChars ctx ('$' :: c2 :: rest2) = '$' :: resolveChars ctx (c2 :: rest2) := by
  conv_lhs => unfold resolveChars
  simp [h]

theorem rc_tok (ctx : SubstitutionContext) (rest2 inner after : List Char)
    (hs : splitAtClose rest2 = some (inner, after)) :
    resolveChars ctx ('$' :: '{' :: rest2) =
      (match substToken ctx inner with
       | some rep => rep
       | none => '$' :: '{' :: (inner ++ ['}'])) ++ resolveChars ctx after := by
  conv_lhs => unfold resolveChars
  split
  · split
    · rename_i heq
      cases heq
    · rename_i c2 r2 heq
      injection heq with h1 h2
      subst h1
      subst h2
      rw [if_pos rfl]
      split
      · rename_i inner2 after2 heq2
        rw [hs] at heq2
        have h2 := Option.some.inj heq2
        rw [show inner2 = inner from (congrArg Prod.fst h2).symm,
            show after2 = after from (congrArg Prod.snd h2).symm]
      · rename_i heq2
        rw [hs] at heq2
        cases heq2
  · rename_i hne
    exact absurd rfl hne

theorem rc_noclose (ctx : SubstitutionContext) (rest2 : List Char)
    (hs : splitAtClose rest2 = none) :
    resolveChars ctx ('$' :: '{' :: rest2) = '$' :: '{' :: resolveChars ctx rest2 := by
  conv_lhs => unfold resolveChars
  split
  · split
    · rename_i heq
      cases heq
    · rename_i c2 r2 heq
      injection heq with h1 h2
      subst h1
      subst h2
      rw [if_pos rfl]
      split
      · rename_i inner2 after2 heq2
        rw [hs] at heq2
        cases heq2
      · rfl
  · rename_i hne
    exact absurd rfl hne

/-- Characters that can neither open nor close a substitution token. -/
def charNeutral (c : Char) : Bool := c ≠ '$' && c ≠ '{' && c ≠ '}'

/-- Holds of a string containing no character that could form or close
a token. -/
def strNeutral (s : String) : Bool := s.data.all charNeutral

/-- Token bodies free of nested dollar and open-brace characters. -/
def tokenClean (inner : List Char) : Bool := inner.all (fun c => c ≠ '$' && c ≠ '{')

/-- Inputs whose every dollar character opens a well-formed token: the
dollar is immediately followed by an open brace, a closing brace occurs
later, and the token body is clean. -/
def wfTokens (l : List Char) : Bool :=
  match l with
  | [] => true
  | c :: rest =>
      if c = '$' then
        match rest with
        | [] => false
        | c2 :: rest2 =>
            if c2 = '{' then
              match hs : splitAtClose rest2 with
              | some (inner, after) => tokenClean inner && wfTokens after
              | none => false
            else false
      else wfTokens rest
termination_by l.length
decreasing_by
  · have := splitAtClose_length hs
    simp only [List.length_cons]
    omega
  · simp only [List.length_cons]
    omega

theorem wf_nil : wfTokens [] = true := by
  conv_lhs => unfold wfTokens

theorem wf_lit (c : Char) (rest : List Char) (h : c ≠ '$') :
    wfTokens (c :: rest) = wfTokens rest := by
  conv_lhs => unfold wfTokens
  simp [h]

theorem wf_dollar_end : wfTokens ['$'] = false := by
  conv_lhs => unfold wfTokens
  simp

theorem wf_dollar_nb (c2 : Char) (rest2 : List Char) (h : c2 ≠ '{') :
    wfTokens ('$' :: c2 :: rest2) = false := by
  conv_lhs => unfold wfTokens
  simp [h]

theorem wf_tok (rest2 inner after : List Char)
    (hs : splitAtClose rest2 = some (inner, after)) :
    wfTokens ('$' :: '{' :: rest2) = (tokenClean inner && wfTokens after) := by
  conv_lhs => unfold wfTokens
  split
  · split
    · rename_i heq
      cases heq
    · rename_i c2 r2 heq
      injection heq with h1 h2
      subst h1
      subst h2
      rw [if_pos rfl]
      split
      · rename_i inner2 after2 heq2
        rw [hs] at heq2
        have h2 := Option.some.inj heq2
        rw [show inner2 = inner from (congrArg Prod.fst h2).symm,
            show after2 = after from (congrArg Prod.snd h2).symm]
      · rename_i heq2
        rw [hs] at heq2
        cases heq2
  · rename_i hne
    exact absurd rfl hne

theorem wf_noclose (rest2 : List Char) (hs : splitAtClose rest2 = none) :
    wfTokens ('$' :: '{' :: rest2) = false := by
  conv_lhs => unfold wfTokens
  split
  · split
    · rename_i heq
      cases heq
    · rename_i c2 r2 heq
      injection heq with h1 h2
      subst h1
      subst h2
      rw [if_pos rfl]
      split
      · rename_i inner2 after2 heq2
        rw [hs] at heq2
        cases heq2
      · rfl
  · rename_i hne
    exact absurd rfl hne

/-- Contexts all of whose substitutable values are token-neutral. -/
def CtxOkB (ctx : SubstitutionContext) : Bool :=
  strNeutral ctx.localWorkspaceFolder && strNeutral ctx.containerWorkspaceFolder &&
  strNeutral ctx.generatedId && ctx.localEnv.all (fun p => strNeutral p.2) &&
  ctx.containerEnv.all (fun p => strNeutral p.2)

/-- Helper: environment lookups in a token-neutral environment yield
token-neutral values. -/
theorem lookupEnv_neutral {env : List (String × String)} (n : String)
    (h : env.all (fun p => strNeutral p.2) = true) :
    (lookupEnv env n).data.all charNeutral = true := by
  unfold lookupEnv
  cases hf : env.find? (fun p => p.1 == n) with
  | none => rfl
  | some p =>
      have hp : p ∈ env := List.mem_of_find?_eq_some hf
      rw [List.all_eq_true] at h
      exact h p hp

/-- Helper: every replacement a token-neutral context can produce is
token-neutral. -/
theorem substToken_neutral {ctx : SubstitutionContext} {inner rep : List Char}
    (hctx : CtxOkB ctx = true) (h : substToken ctx inner = some rep) :
    rep.all charNeutral = true := by
  unfold CtxOkB at hctx
  simp only [Bool.and_eq_true] at hctx
  obtain ⟨⟨⟨⟨h1, h2⟩, h3⟩, h4⟩, h5⟩ := hctx
  unfold substToken at h
  split at h
  · exact (Option.some.inj h) ▸ h1
  · split at h
    · exact (Option.some.inj h) ▸ h2
    · split at h
      · exact (Option.some.inj h) ▸ h3
      · split at h
        · exact (Option.some.inj h) ▸ lookupEnv_neutral _ h4
        · split at h
          · split at h
            · exact (Option.some.inj h) ▸ lookupEnv_neutral _ h5
            · exact (Option.some.inj h) ▸ rfl
          · cases h

/-- Helper: a dollar-free prefix passes through the substitution scan
unchanged. -/
theorem rc_append_free (ctx : SubstitutionContext) :
    ∀ (s t : List Char), (∀ c ∈ s, c ≠ '$') →
      resolveChars ctx (s ++ t) = s ++ resolveChars ctx t := by
  intro s
  induction s with
  | nil => intro t h; rfl
  | cons c ss ih =>
      intro t h
      rw [List.cons_append, rc_lit ctx c (ss ++ t) (h c (List.mem_cons_self c ss)),
          ih t (fun x hx => h x (List.mem_cons_of_mem c hx))]
      rfl

/-- Helper: splitting a list built around an explicit first closing
brace recovers its parts. -/
theorem splitAtClose_round : ∀ (a b : List Char), '}' ∉ a →
    splitAtClose (a ++ '}' :: b) = some (a, b) := by
  intro a
  induction a with
  | nil =>
      intro b _
      rw [List.nil_append]
      unfold splitAtClose
      rw [if_pos rfl]
  | cons c aa ih =>
      intro b h
      have hc : ¬ c = '}' := fun hx => h (hx ▸ List.mem_cons_self c aa)
      rw [List.cons_append]
      unfold splitAtClose
      rw [if_neg hc, ih b (fun hx => h (List.mem_cons_of_mem c hx))]
      rfl

/-- Core idempotence, by strong induction on length: one substitution
pass over a well-formed input under a token-neutral context is a fixed
point of the scan. -/
theorem rc_idem_aux (ctx : SubstitutionContext) (hctx : CtxOkB ctx = true) :
    ∀ (n : Nat) (l : List Char), l.length ≤ n → wfTokens l = true →
      resolveChars ctx (resolveChars ctx l) = resolveChars ctx l := by
  intro n
  induction n with
  | zero =>
      intro l hlen hwf
      have h0 : l = [] := List.eq_nil_of_length_eq_zero (Nat.le_zero.mp hlen)
      subst h0
      simp [rc_nil]
  | succ n ih =>
      intro l hlen hwf
      cases l with
      | nil => simp [rc_nil]
      | cons c rest =>
          by_cases hc : c = '$'
          · subst hc
            cases rest with
            | nil =>
                rw [wf_dollar_end] at hwf
                cases hwf
            | cons c2 rest2 =>
                by_cases hc2 : c2 = '{'
                · subst hc2
                  cases hs : splitAtClose rest2 with
                  | none =>
                      rw [wf_noclose rest2 hs] at hwf
                      cases hwf
                  | some p =>
                      obtain ⟨inner, after⟩ := p
                      rw [wf_tok rest2 inner after hs] at hwf
                      simp only [Bool.and_eq_true] at hwf
                      obtain ⟨hclean, hwfa⟩ := hwf
                      have hlen2 : after.length ≤ n := by
                        have hsl := splitAtClose_length hs
                        simp only [List.length_cons] at hlen
                        omega
                      have hR := ih after hlen2 hwfa
                      rw [rc_tok ctx rest2 inner after hs]
                      cases hsub : substToken ctx inner with
                      | some rep =>
                          simp only
                          have hrepn := substToken_neutral hctx hsub
                          rw [List.all_eq_true] at hrepn
                          have hrep : ∀ x ∈ rep, x ≠ '$' := by
                            intro x hx
                            have := hrepn x hx
                            unfold charNeutral at this
                            simp only [Bool.and_eq_true, decide_eq_true_eq] at this
                            exact this.1.1
                          rw [rc_append_free ctx rep _ hrep, hR]
                      | none =>
                          simp only
                          have hinner_nc : '}' ∉ inner := (splitAtClose_some hs).2
                          have hshape : ('$' :: '{' :: (inner ++ ['}'])) ++ resolveChars ctx after
                              = '$' :: '{' :: (inner ++ '}' :: resolveChars ctx after) := by
                            simp
                          rw [hshape, rc_tok ctx (inner ++ '}' :: resolveChars ctx after) inner
                              (resolveChars ctx after)
                              (splitAtClose_round inner (resolveChars ctx after) hinner_nc),
                              hsub, hR]
                          simp
                · rw [wf_dollar_nb c2 rest2 hc2] at hwf
                  cases hwf
          · have hwf2 : wfTokens rest = true := by
              rw [wf_lit c rest hc] at hwf
              exact hwf
            have hlen2 : rest.length ≤ n := by
              simp only [List.length_cons] at hlen
              omega
            have hR := ih rest hlen2 hwf2
            rw [rc_lit ctx c rest hc, rc_lit ctx c _ hc, hR]

/-- Modelled from the spec: a configuration value is a string or a tree
(arrays and objects of values); resolve returns a same-shape value. -/
inductive JValue where
  | str : String → JValue
  | arr : List JValue → JValue
  | obj : List (String × JValue) → JValue

mutual

/-- Modelled from the spec: resolve(value, context) maps the textual
substitution over every string of the value, preserving its shape. -/
def resolveValue (ctx : SubstitutionContext) : JValue → JValue
  | .str s => .str (resolveString ctx s)
  | .arr xs => .arr (resolveArr ctx xs)
  | .obj fs => .obj (resolveObj ctx fs)

/-- Resolve the elements of an array value. -/
def resolveArr (ctx : SubstitutionContext) : List JValue → List JValue
  | [] => []
  | v :: vs => resolveValue ctx v :: resolveArr ctx vs

/-- Resolve the field values of an object value. -/
def resolveObj (ctx : SubstitutionContext) : List (String × JValue) → List (String × JValue)
  | [] => []
  | (k, v) :: fs => (k, resolveValue ctx v) :: resolveObj ctx fs

end

mutual

/-- Values whose every string has well-formed tokens. -/
def wfValue : JValue → Bool
  | .str s => wfTokens s.data
  | .arr xs => wfArr xs
  | .obj fs => wfObj fs

/-- Well-formedness over array elements. -/
def wfArr : List JValue → Bool
  | [] => true
  | v :: vs => wfValue v && wfArr vs

/-- Well-formedness over object fields. -/
def wfObj : List (String × JValue) → Bool
  | [] => true
  | (_, v) :: fs => wfValue v && wfObj fs

end

/-- String-level idempotence under a token-neutral context and
well-formed input. -/
theorem resolveString_idem (ctx : SubstitutionContext) (hctx : CtxOkB ctx = true)
    (s : String) (hwf : wfTokens s.data = true) :
    resolveString ctx (resolveString ctx s) = resolveString ctx s := by
  unfold resolveString
  exact congrArg String.mk
    (rc_idem_aux ctx hctx s.data.length s.data (Nat.le_refl _) hwf)

mutual

/-- Value-level idempotence under a token-neutral context. -/
theorem resolveValue_idem (ctx : SubstitutionContext) (hctx : CtxOkB ctx = true) :
    ∀ v : JValue, wfValue v = true →
      resolveValue ctx (resolveValue ctx v) = resolveValue ctx v
  | .str s, h => congrArg JValue.str (resolveString_idem ctx hctx s h)
  | .arr xs, h => congrArg JValue.arr (resolveArr_idem ctx hctx xs h)
  | .obj fs, h => congrArg JValue.obj (resolveObj_idem ctx hctx fs h)

/-- Array-level idempotence under a token-neutral context. -/
theorem resolveArr_idem (ctx : SubstitutionContext) (hctx : CtxOkB ctx = true) :
    ∀ xs : List JValue, wfArr xs = true →
      resolveArr ctx (resolveArr ctx xs) = resolveArr ctx xs
  | [], _ => rfl
  | v :: vs, h => by
      rw [show wfArr (v :: vs) = (wfValue v && wfArr vs) from rfl, Bool.and_eq_true] at h
      show resolveValue ctx (resolveValue ctx v) :: resolveArr ctx (resolveArr ctx vs)
          = resolveValue ctx v :: resolveArr ctx vs
      rw [resolveValue_idem ctx hctx v h.1, resolveArr_idem ctx hctx vs h.2]

/-- Object-level idempotence under a token-neutral context. -/
theorem resolveObj_idem (ctx : SubstitutionContext) (hctx : CtxOkB ctx = true) :
    ∀ fs : List (String × JValue), wfObj fs = true →
      resolveObj ctx (resolveObj ctx fs) = resolveObj ctx fs
  | [], _ => rfl
  | (k, v) :: fs, h => by
      rw [show wfObj ((k, v) :: fs) = (wfValue v && wfObj fs) from rfl, Bool.and_eq_true] at h
      show (k, resolveValue ctx (resolveValue ctx v)) :: resolveObj ctx (resolveObj ctx fs)
          = (k, resolveValue ctx v) :: resolveObj ctx fs
      rw [resolveValue_idem ctx hctx v h.1, resolveObj_idem ctx hctx fs h.2]

end

/-- Context for the C4 counterexample: pre-container phase, FOO bound to
a value that itself contains a localEnv token. -/
def ctxCE : SubstitutionContext :=
  ⟨Phase.preContainer, "", "", [("FOO", "a${localEnv:FOO}")], [], ""⟩

/-- C4 counterexample: with a context whose FOO value contains token
text, resolving the string twice differs from resolving it once — the
first pass produces a${localEnv:FOO}, whose token the second pass
substitutes again, yielding aa${localEnv:FOO}.  The substitution is
therefore not idempotent for every value and context. -/
theorem c4_counterexample :
    resolveValue ctxCE (resolveValue ctxCE (.str "${localEnv:FOO}"))
      ≠ resolveValue ctxCE (.str "${localEnv:FOO}") := by
  have hsplit : splitAtClose "localEnv:FOO\x7d".data = some ("localEnv:FOO".data, []) := by
    decide
  have hsub : substToken ctxCE "localEnv:FOO".data = some "a${localEnv:FOO}".data := by
    decide
  have h1 : resolveChars ctxCE "${localEnv:FOO}".data = "a${localEnv:FOO}".data := by
    rw [show ("${localEnv:FOO}".data) = '$' :: '{' :: "localEnv:FOO\x7d".data from rfl,
        rc_tok ctxCE _ _ _ hsplit, hsub, rc_nil]
    rfl
  have hsplit2 : splitAtClose "localEnv:FOO\x7d".data = some ("localEnv:FOO".data, []) := hsplit
  have h2 : resolveChars ctxCE "a${localEnv:FOO}".data = "aa${localEnv:FOO}".data := by
    rw [show ("a${localEnv:FOO}".data) = 'a' :: '$' :: '{' :: "localEnv:FOO\x7d".data from rfl,
        rc_lit ctxCE 'a' _ (by decide), rc_tok ctxCE _ _ _ hsplit2, hsub, rc_nil]
    rfl
  intro hEq
  have hstr : resolveString ctxCE (resolveString ctxCE "${localEnv:FOO}")
      = resolveString ctxCE "${localEnv:FOO}" := by
    have := congrArg (fun v => match v with | JValue.str s => s | _ => "") hEq
    simpa [resolveValue] using this
  unfold resolveString at hstr
  rw [h1] at hstr
  rw [show (String.mk "a${localEnv:FOO}".data) = "a${localEnv:FOO}" from rfl] at hstr
  rw [h2] at hstr
  have : ("aa${localEnv:FOO}".data) = ("a${localEnv:FOO}".data) := congrArg String.data hstr
  exact absurd this (by decide)

/-- C4 (amended): resolve is idempotent for every value all of whose
strings have well-formed tokens, under every context whose substitutable
values are token-neutral; without those restrictions the textual,
non-rescanning substitution admits the recorded counterexample. -/
theorem c4_resolve_idempotent (ctx : SubstitutionContext) (v : JValue)
    (hctx : CtxOkB ctx = true) (hv : wfValue v = true) :
    resolveValue ctx (resolveValue ctx v) = resolveValue ctx v :=
  resolveValue_idem ctx hctx v hv

/-- Context for the C4 witness: post-container phase with neutral
values. -/
def ctxW : SubstitutionContext :=
  ⟨Phase.postContainer, "/w", "/cw", [("FOO", "bar")], [("PATH", "p")], "id1"⟩

/-- Witness for C4 at a concrete tree value and token-neutral context. -/
theorem c4_witness :
    CtxOkB ctxW = true ∧
    wfValue (.arr [.str "${localEnv:FOO}", .obj [("k", .str "x${devcontainerId}y")]]) = true ∧
    resolveValue ctxW (resolveValue ctxW
        (.arr [.str "${localEnv:FOO}", .obj [("k", .str "x${devcontainerId}y")]]))
      = resolveValue ctxW (.arr [.str "${localEnv:FOO}", .obj [("k", .str "x${devcontainerId}y")]]) := by
  refine ⟨by decide, ?_, ?_⟩
  · show (wfTokens "${localEnv:FOO}".data && (wfTokens "x${devcontainerId}y".data
        && true && true)) = true
    rw [show ("${localEnv:FOO}".data) = '$' :: '{' :: "localEnv:FOO\x7d".data from rfl,
        wf_tok _ _ _ (show splitAtClose "localEnv:FOO\x7d".data
          = some ("localEnv:FOO".data, []) by decide),
        show ("x${devcontainerId}y".data) = 'x' :: '$' :: '{' :: "devcontainerId\x7dy".data from rfl,
        wf_lit 'x' _ (by decide),
        wf_tok _ _ _ (show splitAtClose "devcontainerId\x7dy".data
          = some ("devcontainerId".data, ['y']) by decide),
        wf_lit 'y' _ (by decide)]
    simp only [wf_nil]
    decide
  · apply c4_resolve_idempotent ctxW _ (by decide)
    show (wfTokens "${localEnv:FOO}".data && (wfTokens "x${devcontainerId}y".data
        && true && true)) = true
    rw [show ("${localEnv:FOO}".data) = '$' :: '{' :: "localEnv:FOO\x7d".data from rfl,
        wf_tok _ _ _ (show splitAtClose "localEnv:FOO\x7d".data
          = some ("localEnv:FOO".data, []) by decide),
        show ("x${devcontainerId}y".data) = 'x' :: '$' :: '{' :: "devcontainerId\x7dy".data from rfl,
        wf_lit 'x' _ (by decide),
        wf_tok _ _ _ (show splitAtClose "devcontainerId\x7dy".data
          = some ("devcontainerId".data, ['y']) by decide),
        wf_lit 'y' _ (by decide)]
    simp only [wf_nil]
    decide

/-! ### Dependency Graph Builder and Installation Planner (spec §4.4,
§4.5) — modelled from the spec -/

/-- Modelled from the spec: a DependencyGraph over resolved feature
manifests; hard edges come from dependsOn and soft edges from
installsAfter, both restricted to ids present in the node set. -/
structure DependencyGraph where
  nodes : List FeatureManifest
deriving DecidableEq, Repr

/-- Ids of the graph's nodes. -/
def graphIds (g : DependencyGraph) : List String := g.nodes.map (·.id)

/-- Hard dependencies of a node within the graph. -/
def hardDeps (g : DependencyGraph) (m : FeatureManifest) : List String :=
  m.dependsOn.filter (fun d => decide (d ∈ graphIds g))

/-- Soft ordering predecessors of a node within the graph. -/
def softDeps (g : DependencyGraph) (m : FeatureManifest) : List String :=
  m.installsAfter.filter (fun d => decide (d ∈ graphIds g))

/-- Hard edge a → b of the graph: a dependsOn b, both nodes present. -/
def HardEdge (g : DependencyGraph) (a b : FeatureManifest) : Prop :=
  a ∈ g.nodes ∧ b ∈ g.nodes ∧ b.id ∈ a.dependsOn

/-- A node is ready within a working set when none of its hard
dependencies is still in the set. -/
def readyInB (g : DependencyGraph) (remaining : List FeatureManifest)
    (m : FeatureManifest) : Bool :=
  (hardDeps g m).all (fun d => !(remaining.any (fun n => decide (n.id = d))))

/-- One round of the builder's cycle check: drop every ready node. -/
def peelStep (g : DependencyGraph) (remaining : List FeatureManifest) :
    List FeatureManifest :=
  remaining.filter (fun m => !(readyInB g remaining m))

/-- Fuelled repetition of peelStep; a non-shrinking round means no node
was ready, so the remainder contains a hard cycle. -/
def peel (g : DependencyGraph) : Nat → List FeatureManifest → List FeatureManifest
  | 0, remaining => remaining
  | fuel + 1, remaining =>
      let next := peelStep g remaining
      if next.length = remaining.length then remaining else peel g fuel next

/-- Modelled from the spec: a CyclicDependencyError carries the cycle's
node sequence. -/
structure CyclicDependencyError where
  path : List String
deriving DecidableEq, Repr

/-- Walk hard dependencies inside the stuck residue until a node
repeats, collecting the reported cycle path. -/
def walkCycle (g : DependencyGraph) (residue : List FeatureManifest) :
    Nat → List String → String → List String
  | 0, trail, _ => trail.reverse
  | fuel + 1, trail, cur =>
      match residue.find? (fun m => decide (m.id = cur)) with
      | none => trail.reverse
      | some m =>
          match (hardDeps g m).find? (fun d => residue.any (fun n => decide (n.id = d))) with
          | none => trail.reverse
          | some d =>
              if d ∈ trail then (trail.takeWhile (fun x => decide (x ≠ d)) ++ [d]).reverse
              else walkCycle g residue fuel (d :: trail) d

/-- Cycle path reported for a stuck residue. -/
def cyclePath (g : DependencyGraph) (residue : List FeatureManifest) : List String :=
  match residue with
  | [] => []
  | m :: _ => walkCycle g residue (residue.length + 1) [m.id] m.id

deriving instance DecidableEq for Except

/-- Modelled from the spec: build(manifests) constructs the dependency
graph, failing with a CyclicDependencyError carrying a cycle path when a
hard-edge cycle exists — detected when repeated peeling of ready nodes
gets stuck before emptying the node set. -/
def build (manifests : List FeatureManifest) :
    Except CyclicDependencyError DependencyGraph :=
  let g : DependencyGraph := ⟨manifests⟩
  let residue := peel g manifests.length manifests
  if residue.isEmpty then .ok g else .error ⟨cyclePath g residue⟩

/-- Position of a string in a list (the length when absent); used for
override and declaration positions and for plan positions. -/
def idx (a : String) : List String → Nat
  | [] => 0
  | b :: l => if b = a then 0 else idx a l + 1

/-- Modelled from the spec: the planner's tie-break key — (1) explicit
override position when the node appears there, (2) soft installsAfter
hints (prefer nodes whose soft predecessors are all placed), (3)
declaration order. -/
def keyOf (g : DependencyGraph) (eo decl : List String)
    (remaining : List FeatureManifest) (m : FeatureManifest) : Nat × Nat × Nat :=
  (idx m.id eo,
   if (softDeps g m).all (fun d => !(remaining.any (fun n => decide (n.id = d)))) then 0 else 1,
   idx m.id decl)

/-- Strict lexicographic comparison of tie-break keys. -/
def ltKB (a b : Nat × Nat × Nat) : Bool :=
  a.1 < b.1 || (a.1 == b.1 && (a.2.1 < b.2.1 || (a.2.1 == b.2.1 && decide (a.2.2 < b.2.2))))

/-- First minimal element under the key order (ties keep the earlier). -/
def pickMin (k : FeatureManifest → Nat × Nat × Nat) :
    Option FeatureManifest → List FeatureManifest → Option FeatureManifest
  | acc, [] => acc
  | acc, m :: rest =>
      match acc with
      | none => pickMin k (some m) rest
      | some b => if ltKB (k m) (k b) then pickMin k (some m) rest else pickMin k (some b) rest

/-- Modelled from the spec: among the ready nodes, the planner selects
the minimum under the tie-break key. -/
def selectNext (g : DependencyGraph) (eo decl : List String)
    (remaining : List FeatureManifest) : Option FeatureManifest :=
  pickMin (keyOf g eo decl remaining) none (remaining.filter (readyInB g remaining))

/-- Fuelled topological construction of the plan: repeatedly emit the
selected ready node; none when the working set gets stuck (hard cycle)
or fuel ends with nodes left. -/
def planAux (g : DependencyGraph) (eo decl : List String) :
    Nat → List FeatureManifest → List FeatureManifest → Option (List FeatureManifest)
  | 0, remaining, acc => if remaining.isEmpty then some acc.reverse else none
  | fuel + 1, remaining, acc =>
      if remaining.isEmpty then some acc.reverse
      else
        match selectNext g eo decl remaining with
        | none => none
        | some m => planAux g eo decl fuel (remaining.erase m) (m :: acc)

/-- Modelled from the spec: plan(graph, explicitOrder, declarationOrder)
— topological sort over hard edges with deterministic tie-breaking. -/
def plan (g : DependencyGraph) (explicitOrder : Option (List String))
    (decl : List String) : Option (List FeatureManifest) :=
  planAux g (explicitOrder.getD []) decl g.nodes.length g.nodes []

theorem idx_cons (a b : String) (l : List String) :
    idx a (b :: l) = if b = a then 0 else idx a l + 1 := rfl

theorem idx_cons_self (a : String) (l : List String) : idx a (a :: l) = 0 := by
  rw [idx_cons, if_pos rfl]

theorem idx_lt_length {a : String} : ∀ {l : List String}, a ∈ l → idx a l < l.length := by
  intro l
  induction l with
  | nil => intro h; cases h
  | cons b t ih =>
      intro h
      rw [idx_cons]
      by_cases hb : b = a
      · rw [if_pos hb]
        simp
      · rw [if_neg hb]
        have hat : a ∈ t := by
          rcases List.mem_cons.mp h with h1 | h1
          · exact absurd h1.symm hb
          · exact h1
        simpa [List.length_cons] using Nat.succ_lt_succ (ih hat)

theorem idx_append_left {a : String} :
    ∀ {l1 : List String} (l2 : List String), a ∈ l1 → idx a (l1 ++ l2) = idx a l1 := by
  intro l1
  induction l1 with
  | nil => intro l2 h; cases h
  | cons b t ih =>
      intro l2 h
      rw [List.cons_append, idx_cons, idx_cons]
      by_cases hb : b = a
      · rw [if_pos hb, if_pos hb]
      · rw [if_neg hb, if_neg hb]
        have hat : a ∈ t := by
          rcases List.mem_cons.mp h with h1 | h1
          · exact absurd h1.symm hb
          · exact h1
        rw [ih l2 hat]

theorem idx_append_right {a : String} :
    ∀ {l1 : List String} (l2 : List String), a ∉ l1 →
      idx a (l1 ++ l2) = l1.length + idx a l2 := by
  intro l1
  induction l1 with
  | nil => intro l2 _; simp
  | cons b t ih =>
      intro l2 h
      have hb : ¬ b = a := fun hx => h (hx ▸ List.mem_cons_self b t)
      rw [List.cons_append, idx_cons, if_neg hb,
          ih l2 (fun hx => h (List.mem_cons_of_mem b hx)), List.length_cons]
      omega

/-- Soundness relation for partial plans: every node of q has each hard
dependency either among the already-done ids or earlier within q. -/
def RespFrom (g : DependencyGraph) (done : List String) (q : List FeatureManifest) : Prop :=
  ∀ xs a ys, q = xs ++ a :: ys → ∀ d ∈ hardDeps g a, d ∈ done ∨ d ∈ xs.map (·.id)

theorem pickMin_mem (k : FeatureManifest → Nat × Nat × Nat) :
    ∀ (cs : List FeatureManifest) (acc : Option FeatureManifest) (r : FeatureManifest),
      pickMin k acc cs = some r → acc = some r ∨ r ∈ cs := by
  intro cs
  induction cs with
  | nil =>
      intro acc r h
      exact Or.inl h
  | cons m rest ih =>
      intro acc r h
      cases acc with
      | none =>
          rcases ih (some m) r h with h1 | h1
          · exact Or.inr (Option.some.inj h1 ▸ List.mem_cons_self m rest)
          · exact Or.inr (List.mem_cons_of_mem m h1)
      | some b =>
          rw [show pickMin k (some b) (m :: rest)
              = if ltKB (k m) (k b) then pickMin k (some m) rest
                else pickMin k (some b) rest from rfl] at h
          by_cases hlt : ltKB (k m) (k b) = true
          · rw [if_pos hlt] at h
            rcases ih (some m) r h with h1 | h1
            · exact Or.inr (Option.some.inj h1 ▸ List.mem_cons_self m rest)
            · exact Or.inr (List.mem_cons_of_mem m h1)
          · rw [if_neg hlt] at h
            rcases ih (some b) r h with h1 | h1
            · exact Or.inl h1
            · exact Or.inr (List.mem_cons_of_mem m h1)

theorem selectNext_mem_ready {g : DependencyGraph} {eo decl : List String}
    {remaining : List FeatureManifest} {m : FeatureManifest}
    (h : selectNext g eo decl remaining = some m) :
    m ∈ remaining ∧ readyInB g remaining m = true := by
  unfold selectNext at h
  rcases pickMin_mem _ _ _ _ h with h1 | h1
  · cases h1
  · exact ⟨(List.mem_filter.mp h1).1, (List.mem_filter.mp h1).2⟩

theorem ready_not_in_remaining {g : DependencyGraph} {remaining : List FeatureManifest}
    {m : FeatureManifest} (h : readyInB g remaining m = true)
    {d : String} (hd : d ∈ hardDeps g m) : ∀ n ∈ remaining, n.id ≠ d := by
  unfold readyInB at h
  rw [List.all_eq_true] at h
  have h2 := h d hd
  simp only [Bool.not_eq_true', List.any_eq_false, decide_eq_true_eq] at h2
  exact h2

theorem planAux_sound (g : DependencyGraph) (eo decl : List String) :
    ∀ (fuel : Nat) (remaining acc : List FeatureManifest) (p : List FeatureManifest),
      planAux g eo decl fuel remaining acc = some p →
      (acc.reverse ++ remaining).Perm g.nodes →
      ∃ q, p = acc.reverse ++ q ∧ q.Perm remaining ∧ RespFrom g (acc.map (·.id)) q := by
  intro fuel
  induction fuel with
  | zero =>
      intro remaining acc p h hperm
      unfold planAux at h
      by_cases he : remaining.isEmpty
      · rw [if_pos he] at h
        obtain rfl : acc.reverse = p := Option.some.inj h
        rw [List.isEmpty_iff] at he
        refine ⟨[], by simp, by rw [he], ?_⟩
        intro xs a ys hq d hd
        exact absurd hq (by simp)
      · rw [if_neg he] at h
        cases h
  | succ fuel ih =>
      intro remaining acc p h hperm
      unfold planAux at h
      by_cases he : remaining.isEmpty
      · rw [if_pos he] at h
        obtain rfl : acc.reverse = p := Option.some.inj h
        rw [List.isEmpty_iff] at he
        refine ⟨[], by simp, by rw [he], ?_⟩
        intro xs a ys hq d hd
        exact absurd hq (by simp)
      · rw [if_neg he] at h
        cases hsel : selectNext g eo decl remaining with
        | none =>
            rw [hsel] at h
            cases h
        | some m =>
            rw [hsel] at h
            obtain ⟨hmem, hready⟩ := selectNext_mem_ready hsel
            have hperm2 : ((m :: acc).reverse ++ remaining.erase m).Perm g.nodes := by
              have h1 : (m :: acc).reverse ++ remaining.erase m
                  = acc.reverse ++ (m :: remaining.erase m) := by simp
              rw [h1]
              exact (List.Perm.append_left acc.reverse
                (List.perm_cons_erase hmem).symm).trans hperm
            obtain ⟨q', hp, hqperm, hresp⟩ := ih (remaining.erase m) (m :: acc) p h hperm2
            have hdep_acc : ∀ d ∈ hardDeps g m, d ∈ acc.map (·.id) := by
              intro d hd
              have hd_ids : d ∈ graphIds g :=
                of_decide_eq_true (List.mem_filter.mp hd).2
              have hd_all : d ∈ (acc.reverse ++ remaining).map (·.id) :=
                (hperm.map (·.id)).mem_iff.mpr hd_ids
              rw [List.map_append, List.mem_append] at hd_all
              rcases hd_all with h1 | h1
              · simpa using h1
              · exfalso
                obtain ⟨n, hn, hnid⟩ := List.mem_map.mp h1
                exact ready_not_in_remaining hready hd n hn hnid
            refine ⟨m :: q', ?_, ?_, ?_⟩
            · rw [hp]
              simp
            · exact (hqperm.cons m).trans (List.perm_cons_erase hmem).symm
            · intro xs a ys hq d hd
              cases xs with
              | nil =>
                  rw [List.nil_append] at hq
                  injection hq with h1 h2
                  rw [← h1] at hd
                  exact Or.inl (hdep_acc d hd)
              | cons x xs' =>
                  rw [List.cons_append] at hq
                  injection hq with h1 h2
                  rcases hresp xs' a ys h2 d hd with h3 | h3
                  · rw [List.map_cons, List.mem_cons] at h3
                    rcases h3 with h4 | h4
                    · refine Or.inr ?_
                      rw [List.map_cons, List.mem_cons]
                      exact Or.inl (h4.trans (congrArg (·.id) h1))
                    · exact Or.inl h4
                  · refine Or.inr ?_
                    rw [List.map_cons, List.mem_cons]
                    exact Or.inr h3

/-- Position of a feature in a plan, by id. -/
def planPos (p : List FeatureManifest) (m : FeatureManifest) : Nat :=
  idx m.id (p.map (·.id))

/-- Shared soundness lemma: a returned plan places every hard
dependency strictly before its dependent. -/
theorem plan_hard_respected (g : DependencyGraph) (eo : Option (List String))
    (decl : List String) (p : List FeatureManifest) (a b : FeatureManifest)
    (hplan : plan g eo decl = some p) (hnodup : (graphIds g).Nodup)
    (hedge : HardEdge g a b) :
    planPos p b < planPos p a := by
  unfold plan at hplan
  obtain ⟨q, hp, hqperm, hresp⟩ :=
    planAux_sound g (eo.getD []) decl g.nodes.length g.nodes [] p hplan (by simp)
  rw [List.reverse_nil, List.nil_append] at hp
  subst hp
  obtain ⟨ha, hb, hdep⟩ := hedge
  have hbdep : b.id ∈ hardDeps g a := by
    unfold hardDeps
    rw [List.mem_filter]
    exact ⟨hdep, decide_eq_true (List.mem_map_of_mem _ hb)⟩
  have hap : a ∈ p := hqperm.mem_iff.mpr ha
  obtain ⟨xs, ys, hsplit⟩ := List.append_of_mem hap
  rcases hresp xs a ys hsplit b.id hbdep with h1 | hbin
  · cases h1
  have hmap : p.map (·.id) = xs.map (·.id) ++ a.id :: ys.map (·.id) := by
    rw [hsplit]
    simp
  have hnodup_p : (p.map (·.id)).Nodup := by
    have h2 : (p.map (·.id)).Perm (graphIds g) := by
      unfold graphIds
      exact hqperm.map (·.id)
    exact h2.nodup_iff.mpr hnodup
  have hanotin : a.id ∉ xs.map (·.id) := by
    rw [hmap, List.nodup_append] at hnodup_p
    intro hx
    exact hnodup_p.2.2 hx (List.mem_cons_self _ _)
  unfold planPos
  rw [hmap, idx_append_left _ hbin, idx_append_right _ hanotin, idx_cons_self]
  have hlt := idx_lt_length hbin
  simp only [List.length_map] at *
  omega

/-- C1: for every graph, explicit order, declaration order and returned
install plan, and every hard edge a → b (a dependsOn b), b's position in
the returned InstallPlan is strictly before a's (ids unique, as produced
by the resolver). -/
theorem c1_plan_topological (g : DependencyGraph) (eo : Option (List String))
    (decl : List String) (p : List FeatureManifest) (a b : FeatureManifest)
    (hplan : plan g eo decl = some p) (hnodup : (graphIds g).Nodup)
    (hedge : HardEdge g a b) :
    planPos p b < planPos p a :=
  plan_hard_respected g eo decl p a b hplan hnodup hedge

/-- Concrete dependency-free feature for the planner witnesses. -/
def baseC : FeatureManifest := ⟨"base", [], [], []⟩

/-- Concrete dependent feature for the planner witnesses. -/
def toolC : FeatureManifest := ⟨"tool", ["base"], [], []⟩

/-- Concrete two-node graph (tool dependsOn base), declared tool-first
as in spec Scenario A. -/
def gC : DependencyGraph := ⟨[toolC, baseC]⟩

/-- Witness for C1 at Scenario A: the plan is [base, tool] and base
precedes tool. -/
theorem c1_witness :
    plan gC none ["tool", "base"] = some [baseC, toolC] ∧
    (graphIds gC).Nodup ∧ HardEdge gC toolC baseC ∧
    planPos [baseC, toolC] baseC < planPos [baseC, toolC] toolC := by
  refine ⟨by decide, by decide, ⟨by decide, by decide, by decide⟩, ?_⟩
  exact c1_plan_topological gC none ["tool", "base"] [baseC, toolC] toolC baseC
    (by decide) (by decide) ⟨by decide, by decide, by decide⟩

/-! ### Cycle detection (C2) -/

theorem peelStep_keeps (g : DependencyGraph) (remaining S : List FeatureManifest)
    (hsub : ∀ m ∈ S, m ∈ remaining)
    (hdeps : ∀ m ∈ S, ∃ d ∈ hardDeps g m, d ∈ S.map (·.id)) :
    ∀ m ∈ S, m ∈ peelStep g remaining := by
  intro m hm
  unfold peelStep
  rw [List.mem_filter]
  refine ⟨hsub m hm, ?_⟩
  show (!(readyInB g remaining m)) = true
  rw [Bool.not_eq_true']
  obtain ⟨d, hd, hdS⟩ := hdeps m hm
  unfold readyInB
  rw [List.all_eq_false]
  refine ⟨d, hd, ?_⟩
  show ¬ (!(remaining.any (fun n => decide (n.id = d)))) = true
  have hany : remaining.any (fun n => decide (n.id = d)) = true := by
    rw [List.any_eq_true]
    obtain ⟨n, hnS, hnid⟩ := List.mem_map.mp hdS
    exact ⟨n, hsub n hnS, decide_eq_true hnid⟩
  rw [hany]
  decide

theorem peel_succ (g : DependencyGraph) (fuel : Nat) (remaining : List FeatureManifest) :
    peel g (fuel + 1) remaining =
      if (peelStep g remaining).length = remaining.length then remaining
      else peel g fuel (peelStep g remaining) := rfl

theorem peel_keeps (g : DependencyGraph) :
    ∀ (fuel : Nat) (remaining S : List FeatureManifest),
      (∀ m ∈ S, m ∈ remaining) →
      (∀ m ∈ S, ∃ d ∈ hardDeps g m, d ∈ S.map (·.id)) →
      ∀ m ∈ S, m ∈ peel g fuel remaining := by
  intro fuel
  induction fuel with
  | zero =>
      intro remaining S hsub _ m hm
      exact hsub m hm
  | succ fuel ih =>
      intro remaining S hsub hdeps m hm
      rw [peel_succ]
      by_cases hlen : (peelStep g remaining).length = remaining.length
      · rw [if_pos hlen]
        exact hsub m hm
      · rw [if_neg hlen]
        exact ih (peelStep g remaining) S
          (peelStep_keeps g remaining S hsub hdeps) hdeps m hm

/-- Modelled from the spec: a hard-edge cycle among a manifest set — a
nonempty list of member manifests in which every element hard-depends on
the next, cyclically. -/
def IsHardCycle (ms : List FeatureManifest) (l : List FeatureManifest) : Prop :=
  l ≠ [] ∧ (∀ m ∈ l, m ∈ ms) ∧
    ∀ i : Fin l.length,
      (l.get ⟨(i.val + 1) % l.length,
        Nat.mod_lt _ (Nat.lt_of_le_of_lt (Nat.zero_le _) i.isLt)⟩).id ∈ (l.get i).dependsOn

theorem cycle_closed_deps (ms l : List FeatureManifest) (h : IsHardCycle ms l) :
    ∀ m ∈ l, ∃ d ∈ hardDeps ⟨ms⟩ m, d ∈ l.map (·.id) := by
  obtain ⟨hne, hmem, hcyc⟩ := h
  intro m hm
  obtain ⟨i, hi⟩ := List.mem_iff_get.mp hm
  refine ⟨(l.get ⟨(i.val + 1) % l.length,
    Nat.mod_lt _ (Nat.lt_of_le_of_lt (Nat.zero_le _) i.isLt)⟩).id, ?_, ?_⟩
  · unfold hardDeps
    rw [List.mem_filter]
    constructor
    · rw [← hi]
      exact hcyc i
    · refine decide_eq_true ?_
      exact List.mem_map_of_mem _ (hmem _ (List.get_mem l _ _))
  · exact List.mem_map_of_mem _ (List.get_mem l _ _)

theorem build_error_of_cycle (ms l : List FeatureManifest) (h : IsHardCycle ms l) :
    ∃ e, build ms = .error e := by
  have hkeep := peel_keeps ⟨ms⟩ ms.length ms l h.2.1 (cycle_closed_deps ms l h)
  obtain ⟨m, hm⟩ := List.exists_mem_of_ne_nil l h.1
  have hres : m ∈ peel ⟨ms⟩ ms.length ms := hkeep m hm
  unfold build
  rw [if_neg (fun hEmpty => by
    rw [List.isEmpty_iff] at hEmpty
    rw [hEmpty] at hres
    cases hres)]
  exact ⟨_, rfl⟩

/-- Concrete cyclic features for C2. -/
def mAc : FeatureManifest := ⟨"A", ["B"], [], []⟩

/-- Concrete cyclic features for C2. -/
def mBc : FeatureManifest := ⟨"B", ["A"], [], []⟩

/-- C2: any manifest set whose dependsOn relations contain a hard-edge
cycle makes build fail with a CyclicDependencyError; in particular the
two-element set A dependsOn B, B dependsOn A fails with a reported path
of exactly [A, B] or [B, A]. -/
theorem c2_cycle_detection :
    (∀ (ms l : List FeatureManifest), IsHardCycle ms l → ∃ e, build ms = .error e) ∧
    (∃ e, build [mAc, mBc] = .error e ∧ (e.path = ["A", "B"] ∨ e.path = ["B", "A"])) := by
  refine ⟨fun ms l h => build_error_of_cycle ms l h, ⟨⟨["A", "B"]⟩, by decide, Or.inl rfl⟩⟩

/-- Witness for C2 at the concrete two-element cycle. -/
theorem c2_witness :
    IsHardCycle [mAc, mBc] [mAc, mBc] ∧ ∃ e, build [mAc, mBc] = .error e := by
  have hcyc : IsHardCycle [mAc, mBc] [mAc, mBc] :=
    ⟨by decide, fun m hm => hm, by decide⟩
  exact ⟨hcyc, c2_cycle_detection.1 [mAc, mBc] [mAc, mBc] hcyc⟩

/-! ### Planner completeness under conflicting overrides (C6) -/

theorem build_ok_nodes {ms : List FeatureManifest} {g : DependencyGraph}
    (h : build ms = .ok g) : g = ⟨ms⟩ := by
  unfold build at h
  by_cases hres : (peel ⟨ms⟩ ms.length ms).isEmpty
  · rw [if_pos hres] at h
    exact (Except.ok.inj h).symm
  · rw [if_neg hres] at h
    cases h

theorem build_ok_no_stuck {ms : List FeatureManifest} {g : DependencyGraph}
    (h : build ms = .ok g) :
    ∀ S : List FeatureManifest, S ≠ [] → (∀ m ∈ S, m ∈ ms) →
      ¬ (∀ m ∈ S, ∃ d ∈ hardDeps ⟨ms⟩ m, d ∈ S.map (·.id)) := by
  intro S hne hsub hdeps
  have hkeep := peel_keeps ⟨ms⟩ ms.length ms S hsub hdeps
  obtain ⟨m, hm⟩ := List.exists_mem_of_ne_nil S hne
  unfold build at h
  by_cases hres : (peel ⟨ms⟩ ms.length ms).isEmpty
  · rw [List.isEmpty_iff] at hres
    have hin := hkeep m hm
    rw [hres] at hin
    cases hin
  · rw [if_neg hres] at h
    cases h

theorem pickMin_some_acc (k : FeatureManifest → Nat × Nat × Nat) :
    ∀ (cs : List FeatureManifest) (b : FeatureManifest),
      ∃ r, pickMin k (some b) cs = some r
  | [], b => ⟨b, rfl⟩
  | m :: rest, b => by
      rw [show pickMin k (some b) (m :: rest)
          = if ltKB (k m) (k b) then pickMin k (some m) rest
            else pickMin k (some b) rest from rfl]
      by_cases hlt : ltKB (k m) (k b) = true
      · rw [if_pos hlt]
        exact pickMin_some_acc k rest m
      · rw [if_neg hlt]
        exact pickMin_some_acc k rest b

theorem pickMin_ne_nil (k : FeatureManifest → Nat × Nat × Nat)
    (cs : List FeatureManifest) (h : cs ≠ []) :
    ∃ r, pickMin k none cs = some r := by
  cases cs with
  | nil => exact absurd rfl h
  | cons m rest => exact pickMin_some_acc k rest m

theorem planAux_complete (g : DependencyGraph)
    (hns : ∀ S : List FeatureManifest, S ≠ [] → (∀ m ∈ S, m ∈ g.nodes) →
      ¬ (∀ m ∈ S, ∃ d ∈ hardDeps g m, d ∈ S.map (·.id)))
    (eo decl : List String) :
    ∀ (fuel : Nat) (remaining acc : List FeatureManifest),
      remaining.length ≤ fuel → (∀ m ∈ remaining, m ∈ g.nodes) →
      ∃ p, planAux g eo decl fuel remaining acc = some p := by
  intro fuel
  induction fuel with
  | zero =>
      intro remaining acc hlen hsub
      have h0 : remaining = [] := List.eq_nil_of_length_eq_zero (Nat.le_zero.mp hlen)
      subst h0
      exact ⟨acc.reverse, by unfold planAux; rfl⟩
  | succ fuel ih =>
      intro remaining acc hlen hsub
      by_cases he : remaining.isEmpty
      · exact ⟨acc.reverse, by unfold planAux; rw [if_pos he]⟩
      · have hne : remaining ≠ [] := fun hx => he (by rw [hx]; rfl)
        cases hsel : selectNext g eo decl remaining with
        | none =>
            exfalso
            apply hns remaining hne hsub
            intro m hm
            have hnotready : readyInB g remaining m = false := by
              by_contra hrb
              rw [Bool.not_eq_false] at hrb
              have hmf : m ∈ remaining.filter (readyInB g remaining) :=
                List.mem_filter.mpr ⟨hm, hrb⟩
              obtain ⟨r, hr⟩ := pickMin_ne_nil (keyOf g eo decl remaining) _
                (List.ne_nil_of_mem hmf)
              unfold selectNext at hsel
              rw [hsel] at hr
              cases hr
            unfold readyInB at hnotready
            rw [List.all_eq_false] at hnotready
            obtain ⟨d, hd, hdb⟩ := hnotready
            refine ⟨d, hd, ?_⟩
            have hb : remaining.any (fun n => decide (n.id = d)) = true := by
              cases hcase : remaining.any (fun n => decide (n.id = d)) with
              | true => rfl
              | false => exact absurd (by rw [hcase]; rfl) hdb
            rw [List.any_eq_true] at hb
            obtain ⟨n, hn, hnid⟩ := hb
            exact List.mem_map.mpr ⟨n, hn, of_decide_eq_true hnid⟩
        | some m =>
            obtain ⟨hmem, -⟩ := selectNext_mem_ready hsel
            have hpos : 0 < remaining.length := List.length_pos.mpr hne
            have hlen2 : (remaining.erase m).length ≤ fuel := by
              rw [List.length_erase_of_mem hmem]
              omega
            obtain ⟨p, hp⟩ := ih (remaining.erase m) (m :: acc) hlen2
              (fun x hx => hsub x (List.mem_of_mem_erase hx))
            exact ⟨p, by unfold planAux; rw [if_neg he, hsel]; exact hp⟩

/-- An explicit order that places a dependent before one of its hard
dependencies. -/
def ConflictingOrder (g : DependencyGraph) (eo : List String) : Prop :=
  ∃ a b i j, HardEdge g a b ∧ i < j ∧ eo.get? i = some a.id ∧ eo.get? j = some b.id

/-- C6: when the graph was accepted by the builder (no hard cycle) and
the explicit order conflicts with a hard dependency, the planner does
not fail: it returns a plan that still satisfies every hard edge,
overriding the conflicting explicit positions. -/
theorem c6_override_conflict_still_plans (ms : List FeatureManifest)
    (g : DependencyGraph) (eo decl : List String)
    (hbuild : build ms = .ok g) (hnodup : (graphIds g).Nodup)
    (hconflict : ConflictingOrder g eo) :
    ∃ p, plan g (some eo) decl = some p ∧
      ∀ a b, HardEdge g a b → planPos p b < planPos p a := by
  have hg : g = ⟨ms⟩ := build_ok_nodes hbuild
  have hns : ∀ S : List FeatureManifest, S ≠ [] → (∀ m ∈ S, m ∈ g.nodes) →
      ¬ (∀ m ∈ S, ∃ d ∈ hardDeps g m, d ∈ S.map (·.id)) := by
    rw [hg]
    exact fun S h1 h2 => build_ok_no_stuck hbuild S h1 h2
  obtain ⟨p, hp⟩ := planAux_complete g hns eo decl g.nodes.length g.nodes []
    (Nat.le_refl _) (fun m hm => hm)
  refine ⟨p, hp, fun a b hedge => ?_⟩
  exact plan_hard_respected g (some eo) decl p a b hp hnodup hedge

/-- Witness for C6: the builder accepts the tool/base graph, the
explicit order [tool, base] contradicts tool dependsOn base, and the
planner still returns a valid plan. -/
theorem c6_witness :
    build [toolC, baseC] = .ok gC ∧ ConflictingOrder gC ["tool", "base"] ∧
    ∃ p, plan gC (some ["tool", "base"]) ["tool", "base"] = some p ∧
      ∀ a b, HardEdge gC a b → planPos p b < planPos p a := by
  have hconf : ConflictingOrder gC ["tool", "base"] :=
    ⟨toolC, baseC, 0, 1, ⟨by decide, by decide, by decide⟩, by decide, rfl, rfl⟩
  exact ⟨by decide, hconf,
    c6_override_conflict_still_plans [toolC, baseC] gC ["tool", "base"] ["tool", "base"]
      (by decide) (by decide) hconf⟩

/-! ### Planner determinism (C3): output independent of node-set
representation order -/

theorem any_eq_of_perm {α : Type} {l1 l2 : List α} (f : α → Bool) (h : l1.Perm l2) :
    l1.any f = l2.any f := by
  cases hc : l1.any f with
  | true =>
      obtain ⟨x, hx, hfx⟩ := List.any_eq_true.mp hc
      exact (List.any_eq_true.mpr ⟨x, h.mem_iff.mp hx, hfx⟩).symm
  | false =>
      cases hc2 : l2.any f with
      | false => rfl
      | true =>
          obtain ⟨x, hx, hfx⟩ := List.any_eq_true.mp hc2
          have h3 := List.any_eq_true.mpr ⟨x, h.mem_iff.mpr hx, hfx⟩
          rw [hc] at h3
          cases h3

theorem idx_inj {a b : String} : ∀ {l : List String},
    idx a l = idx b l → a ∈ l → b ∈ l → a = b := by
  intro l
  induction l with
  | nil => intro _ ha _; cases ha
  | cons c t ih =>
      intro heq ha hb
      rw [idx_cons, idx_cons] at heq
      by_cases hca : c = a
      · by_cases hcb : c = b
        · rw [← hca, ← hcb]
        · rw [if_pos hca, if_neg hcb] at heq
          cases heq
      · by_cases hcb : c = b
        · rw [if_neg hca, if_pos hcb] at heq
          cases heq
        · rw [if_neg hca, if_neg hcb] at heq
          have hat : a ∈ t := by
            rcases List.mem_cons.mp ha with h1 | h1
            · exact absurd h1.symm hca
            · exact h1
          have hbt : b ∈ t := by
            rcases List.mem_cons.mp hb with h1 | h1
            · exact absurd h1.symm hcb
            · exact h1
          exact ih (Nat.succ.inj heq) hat hbt

theorem ltKB_irrefl (a : Nat × Nat × Nat) : ltKB a a = false := by
  obtain ⟨a1, a2, a3⟩ := a
  simp [ltKB]

theorem ltKB_trans {a b c : Nat × Nat × Nat}
    (h1 : ltKB a b = true) (h2 : ltKB b c = true) : ltKB a c = true := by
  obtain ⟨a1, a2, a3⟩ := a
  obtain ⟨b1, b2, b3⟩ := b
  obtain ⟨c1, c2, c3⟩ := c
  simp only [ltKB, Bool.or_eq_true, Bool.and_eq_true, decide_eq_true_eq, beq_iff_eq] at *
  omega

theorem ltKB_false_trans {a b c : Nat × Nat × Nat}
    (h1 : ltKB a b = false) (h2 : ltKB b c = false) : ltKB a c = false := by
  have h1n : ¬ (ltKB a b = true) := fun hx => Bool.noConfusion (hx.symm.trans h1)
  have h2n : ¬ (ltKB b c = true) := fun hx => Bool.noConfusion (hx.symm.trans h2)
  rw [Bool.eq_false_iff]
  intro hx
  obtain ⟨a1, a2, a3⟩ := a
  obtain ⟨b1, b2, b3⟩ := b
  obtain ⟨c1, c2, c3⟩ := c
  simp only [ltKB, Bool.or_eq_true, Bool.and_eq_true, decide_eq_true_eq, beq_iff_eq,
    not_or] at h1n h2n hx
  omega

theorem ltKB_antisym_eq {a b : Nat × Nat × Nat}
    (h1 : ltKB a b = false) (h2 : ltKB b a = false) : a = b := by
  have h1n : ¬ (ltKB a b = true) := fun hx => Bool.noConfusion (hx.symm.trans h1)
  have h2n : ¬ (ltKB b a = true) := fun hx => Bool.noConfusion (hx.symm.trans h2)
  obtain ⟨a1, a2, a3⟩ := a
  obtain ⟨b1, b2, b3⟩ := b
  simp only [ltKB, Bool.or_eq_true, Bool.and_eq_true, decide_eq_true_eq, beq_iff_eq,
    not_or] at h1n h2n
  simp only [Prod.mk.injEq]
  omega

theorem pickMin_min (k : FeatureManifest → Nat × Nat × Nat) :
    ∀ (cs : List FeatureManifest) (b r : FeatureManifest),
      pickMin k (some b) cs = some r →
      (r = b ∨ r ∈ cs) ∧ ∀ x, (x = b ∨ x ∈ cs) → ltKB (k x) (k r) = false := by
  intro cs
  induction cs with
  | nil =>
      intro b r h
      obtain rfl : b = r := Option.some.inj h
      refine ⟨Or.inl rfl, ?_⟩
      rintro x (rfl | hx)
      · exact ltKB_irrefl (k x)
      · cases hx
  | cons m rest ih =>
      intro b r h
      rw [show pickMin k (some b) (m :: rest)
          = if ltKB (k m) (k b) then pickMin k (some m) rest
            else pickMin k (some b) rest from rfl] at h
      by_cases hlt : ltKB (k m) (k b) = true
      · rw [if_pos hlt] at h
        obtain ⟨hmem, hmin⟩ := ih m r h
        refine ⟨?_, ?_⟩
        · rcases hmem with rfl | hm2
          · exact Or.inr (List.mem_cons_self r rest)
          · exact Or.inr (List.mem_cons_of_mem m hm2)
        · rintro x (rfl | hx)
          · -- x = b: b is beaten by m, and m is not below r
            have hmr : ltKB (k m) (k r) = false := hmin m (Or.inl rfl)
            cases hc : ltKB (k x) (k r) with
            | false => rfl
            | true =>
                exfalso
                -- ltKB m b ∧ ltKB b r → ltKB m r, contradiction
                have := ltKB_trans hlt hc
                rw [hmr] at this
                cases this
          · rcases List.mem_cons.mp hx with rfl | hx2
            · exact hmin x (Or.inl rfl)
            · exact hmin x (Or.inr hx2)
      · rw [if_neg hlt] at h
        obtain ⟨hmem, hmin⟩ := ih b r h
        have hltf : ltKB (k m) (k b) = false := by
          cases hc : ltKB (k m) (k b) with
          | false => rfl
          | true => exact absurd hc hlt
        refine ⟨?_, ?_⟩
        · rcases hmem with rfl | hm2
          · exact Or.inl rfl
          · exact Or.inr (List.mem_cons_of_mem m hm2)
        · rintro x (rfl | hx)
          · exact hmin x (Or.inl rfl)
          · rcases List.mem_cons.mp hx with rfl | hx2
            · -- x = m: m is not below b, and b is not below r
              have hbr : ltKB (k b) (k r) = false := hmin b (Or.inl rfl)
              exact ltKB_false_trans hltf hbr
            · exact hmin x (Or.inr hx2)

theorem pickMin_none_min (k : FeatureManifest → Nat × Nat × Nat)
    (cs : List FeatureManifest) (hne : cs ≠ []) :
    ∃ r, pickMin k none cs = some r ∧ r ∈ cs ∧
      ∀ x ∈ cs, ltKB (k x) (k r) = false := by
  cases cs with
  | nil => exact absurd rfl hne
  | cons m rest =>
      obtain ⟨r, hr⟩ := pickMin_some_acc k rest m
      obtain ⟨hmem, hmin⟩ := pickMin_min k rest m r hr
      refine ⟨r, hr, ?_, ?_⟩
      · rcases hmem with rfl | h2
        · exact List.mem_cons_self r rest
        · exact List.mem_cons_of_mem m h2
      · intro x hx
        rcases List.mem_cons.mp hx with rfl | hx2
        · exact hmin x (Or.inl rfl)
        · exact hmin x (Or.inr hx2)

theorem pickMin_eq_of_perm (k : FeatureManifest → Nat × Nat × Nat)
    (cs1 cs2 : List FeatureManifest) (hperm : cs1.Perm cs2)
    (hinj : ∀ x ∈ cs1, ∀ y ∈ cs1, k x = k y → x = y) :
    pickMin k none cs1 = pickMin k none cs2 := by
  by_cases hne1 : cs1 = []
  · rw [hne1] at hperm
    rw [hne1, hperm.symm.eq_nil]
  · have hne2 : cs2 ≠ [] := by
      intro h2
      rw [h2] at hperm
      exact hne1 hperm.eq_nil
    obtain ⟨r1, hr1, hm1, hmin1⟩ := pickMin_none_min k cs1 hne1
    obtain ⟨r2, hr2, hm2, hmin2⟩ := pickMin_none_min k cs2 hne2
    rw [hr1, hr2]
    have h12 : ltKB (k r1) (k r2) = false := hmin2 r1 (hperm.mem_iff.mp hm1)
    have h21 : ltKB (k r2) (k r1) = false := hmin1 r2 (hperm.mem_iff.mpr hm2)
    have hk : k r2 = k r1 := ltKB_antisym_eq h21 h12
    rw [hinj r2 (hperm.mem_iff.mpr hm2) r1 hm1 hk]

theorem isEmpty_eq_of_perm {α : Type} {l1 l2 : List α} (h : l1.Perm l2) :
    l1.isEmpty = l2.isEmpty := by
  cases l1 with
  | nil => rw [h.symm.eq_nil]
  | cons a t =>
      cases l2 with
      | nil => exact absurd h.eq_nil (List.cons_ne_nil a t)
      | cons b s => rfl

theorem hardDeps_perm {g1 g2 : DependencyGraph} (hg : g1.nodes.Perm g2.nodes)
    (m : FeatureManifest) : hardDeps g1 m = hardDeps g2 m := by
  unfold hardDeps
  apply List.filter_congr
  intro d _
  exact decide_eq_decide.mpr (hg.map (·.id)).mem_iff

theorem softDeps_perm {g1 g2 : DependencyGraph} (hg : g1.nodes.Perm g2.nodes)
    (m : FeatureManifest) : softDeps g1 m = softDeps g2 m := by
  unfold softDeps
  apply List.filter_congr
  intro d _
  exact decide_eq_decide.mpr (hg.map (·.id)).mem_iff

theorem readyInB_perm {g1 g2 : DependencyGraph} (hg : g1.nodes.Perm g2.nodes)
    {r1 r2 : List FeatureManifest} (hr : r1.Perm r2) (m : FeatureManifest) :
    readyInB g1 r1 m = readyInB g2 r2 m := by
  unfold readyInB
  rw [hardDeps_perm hg m,
      show (fun d => !(r1.any (fun n => decide (n.id = d))))
        = (fun d => !(r2.any (fun n => decide (n.id = d)))) from
        funext (fun d => by rw [any_eq_of_perm (fun n => decide (n.id = d)) hr])]

theorem keyOf_perm {g1 g2 : DependencyGraph} (hg : g1.nodes.Perm g2.nodes)
    (eo decl : List String) {r1 r2 : List FeatureManifest} (hr : r1.Perm r2)
    (m : FeatureManifest) : keyOf g1 eo decl r1 m = keyOf g2 eo decl r2 m := by
  unfold keyOf
  rw [softDeps_perm hg m,
      show (fun d => !(r1.any (fun n => decide (n.id = d))))
        = (fun d => !(r2.any (fun n => decide (n.id = d)))) from
        funext (fun d => by rw [any_eq_of_perm (fun n => decide (n.id = d)) hr])]

theorem selectNext_perm {g1 g2 : DependencyGraph} (hg : g1.nodes.Perm g2.nodes)
    (eo decl : List String) {r1 r2 : List FeatureManifest} (hr : r1.Perm r2)
    (hnodup : (graphIds g1).Nodup) (hdecl : ∀ i ∈ graphIds g1, i ∈ decl)
    (hsub : ∀ m ∈ r1, m ∈ g1.nodes) :
    selectNext g1 eo decl r1 = selectNext g2 eo decl r2 := by
  unfold selectNext
  rw [show keyOf g1 eo decl r1 = keyOf g2 eo decl r2 from
        funext (keyOf_perm hg eo decl hr),
      show readyInB g1 r1 = readyInB g2 r2 from funext (readyInB_perm hg hr)]
  apply pickMin_eq_of_perm _ _ _ (List.Perm.filter _ hr)
  intro x hx y hy hk
  have hx1 : x ∈ g1.nodes := hsub x (List.mem_filter.mp hx).1
  have hy1 : y ∈ g1.nodes := hsub y (List.mem_filter.mp hy).1
  have hk3 : idx x.id decl = idx y.id decl := congrArg (·.2.2) hk
  have hxid : x.id ∈ decl := hdecl x.id (List.mem_map_of_mem _ hx1)
  have hyid : y.id ∈ decl := hdecl y.id (List.mem_map_of_mem _ hy1)
  exact List.inj_on_of_nodup_map hnodup hx1 hy1 (idx_inj hk3 hxid hyid)

theorem planAux_perm (g1 g2 : DependencyGraph) (hg : g1.nodes.Perm g2.nodes)
    (eo decl : List String) (hnodup : (graphIds g1).Nodup)
    (hdecl : ∀ i ∈ graphIds g1, i ∈ decl) :
    ∀ (fuel : Nat) (r1 r2 acc : List FeatureManifest), r1.Perm r2 →
      (∀ m ∈ r1, m ∈ g1.nodes) →
      planAux g1 eo decl fuel r1 acc = planAux g2 eo decl fuel r2 acc := by
  intro fuel
  induction fuel with
  | zero =>
      intro r1 r2 acc hr hsub
      unfold planAux
      rw [isEmpty_eq_of_perm hr]
  | succ fuel ih =>
      intro r1 r2 acc hr hsub
      unfold planAux
      rw [isEmpty_eq_of_perm hr]
      by_cases he : r2.isEmpty
      · rw [if_pos he, if_pos he]
      · rw [if_neg he, if_neg he]
        have hsel := selectNext_perm hg eo decl hr hnodup hdecl hsub
        rw [hsel]
        cases hsel2 : selectNext g2 eo decl r2 with
        | none => rfl
        | some m =>
            have hm1 : m ∈ r1 := (selectNext_mem_ready (hsel.trans hsel2)).1
            exact ih (r1.erase m) (r2.erase m) (m :: acc) (hr.erase m)
              (fun x hx => hsub x (List.mem_of_mem_erase hx))

/-- C3: the Installation Planner is deterministic — its output does not
depend on the (unordered) representation of the node set: two graphs
carrying the same nodes in any order produce identical plans for
identical explicit-order and declaration-order inputs (ids unique and
declared, so the final tie-break is total).  In particular two calls on
literally identical inputs return identical sequences. -/
theorem c3_plan_deterministic (g1 g2 : DependencyGraph) (eo : Option (List String))
    (decl : List String) (hg : g1.nodes.Perm g2.nodes)
    (hnodup : (graphIds g1).Nodup) (hdecl : ∀ i ∈ graphIds g1, i ∈ decl) :
    plan g1 eo decl = plan g2 eo decl := by
  unfold plan
  rw [hg.length_eq]
  exact planAux_perm g1 g2 hg (eo.getD []) decl hnodup hdecl
    g2.nodes.length g1.nodes g2.nodes [] hg (fun m hm => hm)

/-- The witness graph with the same nodes stored in the opposite
order. -/
def gC2 : DependencyGraph := ⟨[baseC, toolC]⟩

/-- Witness for C3: the two node orders of the tool/base graph produce
the same plan. -/
theorem c3_witness :
    gC.nodes.Perm gC2.nodes ∧
    plan gC none ["tool", "base"] = plan gC2 none ["tool", "base"] := by
  have hperm : gC.nodes.Perm gC2.nodes := List.Perm.swap baseC toolC []
  exact ⟨hperm, c3_plan_deterministic gC gC2 none ["tool", "base"] hperm
    (by decide) (by decide)⟩

end DC
